import Mathlib

/-!
Verification of the BIDS curation utilities in PennLINC/grmpy_opendata.

This file gives a shallow embedding, in Lean, of the string-, path- and
JSON-level logic of the curation scripts:

* `curation/04_cubids_curation/remove_run_and_fix_intendedfor.py`
  (run-entity removal, rename planning, `IntendedFor` repair);
* `curation/04_cubids_curation/round_AcquisitionTime.py`
  (time parsing and rounding of `AcquisitionTime` sidecar fields);
* `curation/04_cubids_curation/set_background_suppression_true.py`;
* `curation/04_cubids_curation/update_perf_metadata.py` (ASL field sync);
* `curation/04_cubids_curation/cubids_group_rename.py`
  (acquisition-label merging, `unify_acq` / `modify_acq`);
* `curation/04_cubids_curation/events/convert_and_score_fracback.py`
  (the `dprime` half-count correction).

Strings are modelled as `List Char`; Python's filesystem is modelled as an
association list from paths (lists of components) to abstract content
identifiers.  Python regular expressions used by the scripts
(`_run-\d+` token matching, the two `AcquisitionTime` patterns, literal
`re.sub`/`str.split` with a fixed separator) are implemented as explicit
structurally recursive scanners so that every definition evaluates by
kernel reduction.  JSON numbers are modelled as rationals, which matches
Python's numeric `==` on the values the scripts compare.
-/

namespace Grmpy

/-- Strings from the Python source, modelled as lists of characters. -/
abbrev Str := List Char

/-- A filesystem path, as its list of components (the model's BIDS root is
the empty list; `Path.parts` of the Python source). -/
abbrev FPath := List Str

/-! ### Generic string helpers -/

/-- `isStart a b` is true iff `a` is an initial segment of `b`
(Python `startswith`, and the anchored head of a literal regex match). -/
def isStart : Str → Str → Bool
  | [], _ => true
  | _ :: _, [] => false
  | a :: as_, b :: bs => a = b && isStart as_ bs

/-- `isSub needle hay`: Python's substring containment `needle in hay`
(the empty string is contained in everything). -/
def isSub : Str → Str → Bool
  | n, [] => n.isEmpty
  | n, c :: cs => isStart n (c :: cs) || isSub n cs

/-- `endsWithStr suf s`: Python `s.endswith(suf)`. -/
def endsWithStr (suf s : Str) : Bool := isStart suf.reverse s.reverse

/-- Numeric value of a decimal digit character. -/
def digitVal (c : Char) : Nat := c.toNat - '0'.toNat

/-- Decimal value of a digit string (most significant first). -/
def digitsToNat (ds : Str) : Nat := ds.foldl (fun a c => 10 * a + digitVal c) 0

/-- Python `str.strip()`: drop leading and trailing whitespace. -/
def stripWS (s : Str) : Str :=
  ((s.dropWhile Char.isWhitespace).reverse.dropWhile Char.isWhitespace).reverse

/-- Python `str.lower()` on our character lists. -/
def lowerStr (s : Str) : Str := s.map Char.toLower

/-! ### `round_AcquisitionTime.py`: time parsing and rounding

`parse_time_string` accepts `HH:MM[:SS[.ffffff]]` (pattern 1) or
`HHMMSS[.ffffff]` (pattern 2), validating `0 ≤ hour ≤ 23`,
`0 ≤ minute ≤ 59`, `0 ≤ second ≤ 59` exactly as the Python source does. -/

/-- Model of Python's `datetime.time` as used by `round_AcquisitionTime.py`. -/
structure PTime where
  hour : Nat
  minute : Nat
  second : Nat
  microsecond : Nat
deriving DecidableEq, Repr

/-- The range validation both regex branches of `parse_time_string` perform
before constructing a `time` (`0 <= hour <= 23 and 0 <= minute <= 59 and
0 <= second <= 59`). -/
def mkTime (hour minute second micro : Nat) : Option PTime :=
  if hour ≤ 23 ∧ minute ≤ 59 ∧ second ≤ 59 then
    some ⟨hour, minute, second, micro⟩
  else none

/-- The fractional-seconds group `\.(\d{1,6})` anchored at the end:
`int(micro_str.ljust(6, "0"))`. Returns `none` when the remainder is not
one-to-six digits (then the whole regex fails, because the optional group
would leave unconsumed input before `$`). -/
def parseFrac (cs : Str) : Option Nat :=
  if cs ≠ [] ∧ cs.length ≤ 6 ∧ cs.all Char.isDigit then
    some (digitsToNat cs * 10 ^ (6 - cs.length))
  else none

/-- The optional `(?::(\d{2})(?:\.(\d{1,6}))?)?$` tail of pattern 1:
returns `(second, microsecond)`, or `none` when the regex cannot match. -/
def parseSecTail : Str → Option (Nat × Nat)
  | [] => some (0, 0)
  | ':' :: d1 :: d2 :: rest =>
    if d1.isDigit ∧ d2.isDigit then
      match rest with
      | [] => some (digitsToNat [d1, d2], 0)
      | '.' :: frac => (parseFrac frac).map fun mi => (digitsToNat [d1, d2], mi)
      | _ => none
    else none
  | _ => none

/-- Pattern 1 continued after the hour group: `:(\d{2})` then the tail.
Outer `none` means the regex did not match structurally; `some none` means
it matched but range validation failed (Python then returns `None` without
trying pattern 2). -/
def parseAfterHour (hour : Nat) : Str → Option (Option PTime)
  | ':' :: m1 :: m2 :: rest =>
    if m1.isDigit ∧ m2.isDigit then
      match parseSecTail rest with
      | some (sec, mic) => some (mkTime hour (digitsToNat [m1, m2]) sec mic)
      | none => none
    else none
  | _ => none

/-- Pattern 1: `^(\d{1,2}):(\d{2})(?::(\d{2})(?:\.(\d{1,6}))?)?$`.
The greedy `\d{1,2}` first tries two digits and backtracks to one; when the
two-digit attempt matches structurally the one-digit attempt cannot (the
second digit is not `:`), so trying them in order is faithful. -/
def parsePattern1 : Str → Option (Option PTime)
  | d1 :: d2 :: rest =>
    if d1.isDigit then
      if d2.isDigit then
        match parseAfterHour (digitsToNat [d1, d2]) rest with
        | some r => some r
        | none => parseAfterHour (digitVal d1) (d2 :: rest)
      else parseAfterHour (digitVal d1) (d2 :: rest)
    else none
  | _ => none

/-- Pattern 2: `^(\d{2})(\d{2})(\d{2})(?:\.(\d{1,6}))?$`. -/
def parsePattern2 : Str → Option (Option PTime)
  | d1 :: d2 :: d3 :: d4 :: d5 :: d6 :: rest =>
    if [d1, d2, d3, d4, d5, d6].all Char.isDigit then
      match rest with
      | [] => some (mkTime (digitsToNat [d1, d2]) (digitsToNat [d3, d4])
                    (digitsToNat [d5, d6]) 0)
      | '.' :: frac =>
        match parseFrac frac with
        | some mic => some (mkTime (digitsToNat [d1, d2]) (digitsToNat [d3, d4])
                            (digitsToNat [d5, d6]) mic)
        | none => none
      | _ => none
    else none
  | _ => none

/-- `parse_time_string` of `round_AcquisitionTime.py`: strip, try pattern 1,
then pattern 2; a structural match with out-of-range fields yields `None`
without falling through. -/
def parse_time_string (v : Str) : Option PTime :=
  let s := stripWS v
  if s = [] then none
  else
    match parsePattern1 s with
    | some r => r
    | none =>
      match parsePattern2 s with
      | some r => r
      | none => none

/-- `round_to_nearest_hour` of `round_AcquisitionTime.py`: offset past the
hour of at least 30 minutes (in microseconds) rounds up, wrapping mod 24. -/
def round_to_nearest_hour (t : PTime) : PTime :=
  let offset_us := (t.minute * 60 + t.second) * 1000000 + t.microsecond
  let threshold_us := 30 * 60 * 1000000
  if offset_us ≥ threshold_us then
    ⟨(t.hour + 1) % 24, 0, 0, 0⟩
  else
    ⟨t.hour, 0, 0, 0⟩

/-- `f"{n:02d}"`: decimal digits, left-padded with `0` to width two. -/
def pad2 (n : Nat) : Str :=
  let ds := Nat.toDigits 10 n
  if ds.length = 1 then '0' :: ds else ds

/-- `format_time_hhmmss`: `f"{t.hour:02d}:{t.minute:02d}:{t.second:02d}"`. -/
def format_time_hhmmss (t : PTime) : Str :=
  pad2 t.hour ++ ':' :: (pad2 t.minute ++ ':' :: pad2 t.second)

/-- The `AcquisitionTime`-value transformation of `process_json_file`
(`round_AcquisitionTime.py` lines 145–201): given the stored string value,
return the new string when the file would be rewritten, `none` when the run
performs no write for this file (unparseable value, or
`will_change_content` false). -/
def process_acquisition_time (v : Str) : Option Str :=
  match parse_time_string v with
  | none => none
  | some parsed =>
    let rounded := round_to_nearest_hour parsed
    if rounded.hour ≠ parsed.hour ∨ parsed.minute ≠ 0 ∨ parsed.second ≠ 0 ∨
        parsed.microsecond ≠ 0 then
      some (format_time_hhmmss rounded)
    else none

/-! ### `remove_run_and_fix_intendedfor.py`: run-token removal

`RUN_TOKEN_RE = re.compile(r"_run-\d+")` and its `.sub("", stem)` /
`.search(name)` uses are implemented as left-to-right scanners with a fuel
argument equal to the input length, so they are structurally recursive and
evaluate by kernel reduction. -/

/-- Try to match `_run-\d+` at the head of the string: returns the digit
run and the remainder after the (greedy, maximal) match. -/
def matchRunAt : Str → Option (Str × Str)
  | '_' :: 'r' :: 'u' :: 'n' :: '-' :: rest =>
    if rest.takeWhile Char.isDigit = [] then none
    else some (rest.takeWhile Char.isDigit, rest.dropWhile Char.isDigit)
  | _ => none

/-- `RUN_TOKEN_RE.search(s) is not None`. -/
def searchRunToken : Str → Bool
  | [] => false
  | c :: cs => (matchRunAt (c :: cs)).isSome || searchRunToken cs

/-- Fuel-indexed scanner for `RUN_TOKEN_RE.sub("", s)`: delete every
non-overlapping leftmost match of `_run-\d+`. -/
def runTokenSubGo : Nat → Str → Str
  | 0, s => s
  | _, [] => []
  | fuel + 1, c :: cs =>
    match matchRunAt (c :: cs) with
    | some (_, rest) => runTokenSubGo fuel rest
    | none => c :: runTokenSubGo fuel cs

/-- `RUN_TOKEN_RE.sub("", s)`. -/
def runTokenSub (s : Str) : Str := runTokenSubGo s.length s

/-- Decomposition gadget for the round-trip property: split a string into a
list of `(kept, digits)` segments — each standing for the kept text followed
by a removed `_run-<digits>` token — plus the trailing kept text. -/
def runSplitGo : Nat → Str → List (Str × Str) × Str
  | 0, s => ([], s)
  | _, [] => ([], [])
  | fuel + 1, c :: cs =>
    match matchRunAt (c :: cs) with
    | some (ds, rest) =>
      let r := runSplitGo fuel rest
      (([], ds) :: r.1, r.2)
    | none =>
      match runSplitGo fuel cs with
      | ([], tail) => ([], c :: tail)
      | ((k, t) :: ps, tail) => ((c :: k, t) :: ps, tail)

/-- Segment decomposition of a string with respect to `_run-\d+` matches. -/
def runSplit (s : Str) : List (Str × Str) × Str := runSplitGo s.length s

/-- The characters of the literal token head `_run-`. -/
def runTokenHead : Str := ['_', 'r', 'u', 'n', '-']

/-! ### `remove_run_and_fix_intendedfor.py`: rename planning -/

/-- `split_name_suffix`: `'file.nii.gz' -> ('file', '.nii.gz')`,
`'file.nii' -> ('file', '.nii')`, otherwise split at the last dot. -/
def split_name_suffix (name : Str) : Str × Str :=
  if endsWithStr (".nii.gz".data) name then
    (name.take (name.length - 7), ".nii.gz".data)
  else if endsWithStr (".nii".data) name then
    (name.take (name.length - 4), ".nii".data)
  else
    match (name.reverse).findIdx? (· = '.') with
    | none => (name, [])
    | some r =>
      let dot := name.length - 1 - r
      (name.take dot, name.drop dot)

/-- `Path.name`: the last component of a path. -/
def pathName (p : FPath) : Str := (p.getLast?).getD []

/-- `Path.with_name`: replace the last component. -/
def withName (p : FPath) (n : Str) : FPath := p.dropLast ++ [n]

/-- `RenamePlan` of `remove_run_and_fix_intendedfor.py`. -/
structure RenamePlan where
  src : FPath
  dst : FPath
deriving DecidableEq, Repr

/-- One iteration of the `compute_rename_plans` loop.  `files` is the
snapshot of paths existing on disk (planning performs no mutation, so
`dst.exists()` is membership in that snapshot); the accumulator carries the
plans so far together with `planned_dsts`. -/
def planStep (files : List FPath) (acc : List RenamePlan × List FPath)
    (src : FPath) : List RenamePlan × List FPath :=
  if searchRunToken (pathName src) then
    let stem := (split_name_suffix (pathName src)).1
    let suffix := (split_name_suffix (pathName src)).2
    let newStem := runTokenSub stem
    if newStem = stem then acc
    else
      let dst := withName src (newStem ++ suffix)
      if dst ∈ files ∨ dst ∈ acc.2 then acc
      else (acc.1 ++ [⟨src, dst⟩], acc.2 ++ [dst])
  else acc

/-- `compute_rename_plans`: iterate over every file, skipping names without
a `_run-<digits>` token and destinations that collide with an existing file
or an already planned destination. -/
def compute_rename_plans (files : List FPath) : List RenamePlan :=
  (files.foldl (planStep files) ([], [])).1

/-- `subject_and_session_from_path`, iterating over `p.parts`: remember the
most recent `sub-`/`ses-` components, stopping once both are set; `none`
when no `sub-` component occurs. -/
def sasAux : List Str → Option Str → Option Str → Option Str × Option Str
  | [], subj, ses => (subj, ses)
  | p :: ps, subj, ses =>
    let subj' := if isStart ("sub-".data) p then some p else subj
    let ses' := if isStart ("ses-".data) p then some p else ses
    if subj'.isSome ∧ ses'.isSome then (subj', ses')
    else sasAux ps subj' ses'

/-- `subject_and_session_from_path`. -/
def subject_and_session_from_path (p : FPath) : Option (Str × Option Str) :=
  match sasAux p none none with
  | (none, _) => none
  | (some subj, ses) => some (subj, ses)

/-- Join subject-relative path components with `/`
(`str(PurePosixPath(rel))` on an already-relative path). -/
def joinSlash : List Str → Str
  | [] => []
  | [p] => p
  | p :: ps => p ++ '/' :: joinSlash ps

/-- Split a posix path string into components, dropping empty and `.`
components as `PurePosixPath`/`Path` do for relative paths. -/
def splitSlashGo : Nat → Str → List Str
  | 0, s => [s]
  | _, [] => [[]]
  | fuel + 1, c :: cs =>
    if c = '/' then [] :: splitSlashGo fuel cs
    else
      match splitSlashGo fuel cs with
      | [] => [[c]]
      | p :: ps => (c :: p) :: ps

/-- Components of a posix path string (empty and `.` parts dropped). -/
def splitSlash (s : Str) : List Str :=
  (splitSlashGo s.length s).filter (fun p => p ≠ [] ∧ p ≠ ['.'])

/-- `str(PurePosixPath(rel))` on relative paths: drop empty and `.`
components and re-join with `/`; the empty path prints as `.`. -/
def posixNorm (s : Str) : Str :=
  let core := joinSlash (splitSlash s)
  if s.head? = some '/' then '/' :: core
  else if core = [] then ['.'] else core

/-- `Path.relative_to`: strip a leading base, `none` (the `ValueError`
branch) when `base` is not a leading run of components. -/
def relativeTo (p : FPath) (base : FPath) : Option FPath :=
  match p, base with
  | p, [] => some p
  | [], _ :: _ => none
  | c :: cs, b :: bs => if c = b then relativeTo cs bs else none

/-- Python `dict` assignment `m[k] = v`: replace in place, else append. -/
def dictInsert (m : List (Str × Str)) (k v : Str) : List (Str × Str) :=
  match m with
  | [] => [(k, v)]
  | (k', v') :: rest =>
    if k' = k then (k, v) :: rest else (k', v') :: dictInsert rest k v

/-- Python `dict` lookup (first, and with `dictInsert` only, binding). -/
def dictLookup (m : List (Str × Str)) (k : Str) : Option Str :=
  match m with
  | [] => none
  | (k', v') :: rest => if k' = k then some v' else dictLookup rest k

/-- `build_intendedfor_mapping`: for each planned NIfTI rename under its
subject root, map the old subject-relative posix path to the new one.
The model's BIDS root is `[]`, so the subject base is `[subject]`. -/
def build_intendedfor_mapping (plans : List RenamePlan) : List (Str × Str) :=
  plans.foldl
    (fun m plan =>
      if endsWithStr (".nii".data) (pathName plan.src) ∨
          endsWithStr (".nii.gz".data) (pathName plan.src) then
        match subject_and_session_from_path plan.src with
        | none => m
        | some (subject, _) =>
          match relativeTo plan.src [subject], relativeTo plan.dst [subject] with
          | some srcRel, some dstRel =>
            dictInsert m (joinSlash srcRel) (joinSlash dstRel)
          | _, _ => m
      else m)
    []

/-- `sidecars_for_plan`: for a planned NIfTI rename, also rename existing
sidecars sharing the stem.  `src_sc.exists()` is checked against the
pre-rename snapshot, as `main` expands sidecars before applying renames. -/
def sidecars_for_plan (files : List FPath) (plan : RenamePlan) : List RenamePlan :=
  if endsWithStr (".nii".data) (pathName plan.src) ∨
      endsWithStr (".nii.gz".data) (pathName plan.src) then
    let srcStem := (split_name_suffix (pathName plan.src)).1
    let dstStem := (split_name_suffix (pathName plan.dst)).1
    ([".json".data, ".tsv".data, ".tsv.gz".data, ".bval".data, ".bvec".data].filterMap
      fun ext =>
        let srcSc := withName plan.src (srcStem ++ ext)
        if srcSc ∈ files then
          some ⟨srcSc, withName plan.dst (dstStem ++ ext)⟩
        else none)
  else []

/-! ### `remove_run_and_fix_intendedfor.py`: applying renames

The filesystem is an association list from paths to abstract content
identifiers; `Path.rename` moves the content of `src` to `dst`. -/

/-- Filesystem state: existing paths with abstract file contents. -/
abbrev FS := List (FPath × Nat)

/-- Paths existing in a filesystem state. -/
def fsKeys (st : FS) : List FPath := st.map Prod.fst

/-- Content stored at a path, if the path exists. -/
def fsLookup : FS → FPath → Option Nat
  | [], _ => none
  | (q, c) :: st, p => if q = p then some c else fsLookup st p

/-- Remove the first entry at a path. -/
def fsErase : FS → FPath → FS
  | [], _ => []
  | (q, c) :: st, p => if q = p then st else (q, c) :: fsErase st p

/-- One iteration of the `apply_renames` loop (non-dry-run): skip, with a
warning, when the destination exists at application time; otherwise
`plan.src.rename(plan.dst)` moves the content (`none` models the uncaught
`FileNotFoundError` when the source is missing).  `mkdir(parents=True,
exist_ok=True)` has no effect in the path→content model. -/
def applyStep (st : FS) (plan : RenamePlan) : Option FS :=
  if (fsLookup st plan.dst).isSome then some st
  else
    match fsLookup st plan.src with
    | some c => some ((plan.dst, c) :: fsErase st plan.src)
    | none => none

/-- `apply_renames`: print each plan, and unless `dry_run`, apply it. -/
def apply_renames (plans : List RenamePlan) (dry_run : Bool) (st : FS) :
    Option FS :=
  match plans with
  | [] => some st
  | plan :: rest =>
    if dry_run then apply_renames rest dry_run st
    else
      match applyStep st plan with
      | some st' => apply_renames rest dry_run st'
      | none => none

/-! ### `remove_run_and_fix_intendedfor.py`: `IntendedFor` update -/

/-- The JSON value stored under `"IntendedFor"`: a string, a list of
strings, or JSON `null`. -/
inductive JVal where
  | s (v : Str)
  | l (vs : List Str)
  | null
deriving DecidableEq, Repr

/-- `ensure_list`. -/
def ensure_list : JVal → List Str
  | .null => []
  | .l vs => vs
  | .s v => [v]

/-- `unique_preserve_order` (with the `seen` set as a list). -/
def uniquePreserveGo : List Str → List Str → List Str
  | [], _ => []
  | it :: rest, seen =>
    if it ∈ seen then uniquePreserveGo rest seen
    else it :: uniquePreserveGo rest (it :: seen)

/-- `unique_preserve_order` of `remove_run_and_fix_intendedfor.py`. -/
def unique_preserve_order (items : List Str) : List Str :=
  uniquePreserveGo items []

/-- `exists_after_renames`: a subject-relative path, after substitution
through the rename map, exists on the (current) filesystem.  `ex` is the
`Path.exists` oracle at the time of the call. -/
def exists_after_renames (rel : Str) (subject : Str)
    (rel_map : List (Str × Str)) (ex : FPath → Bool) : Bool :=
  let finalRel := (dictLookup rel_map rel).getD rel
  ex (subject :: splitSlash finalRel)

/-- The entry loop of `update_intendedfor_in_json` (lines 272–288): returns
`(updated, changes)`.  Each entry is posix-normalized, substituted through
`rel_map` when present, kept when still existing per the oracle `exF`, and
dropped otherwise. -/
def update_intendedfor_core (rel_map : List (Str × Str)) (exF : Str → Bool) :
    List Str → List Str × List (Str × Option Str)
  | [] => ([], [])
  | rel :: rest =>
    let r := update_intendedfor_core rel_map exF rest
    let relPosix := posixNorm rel
    match dictLookup rel_map relPosix with
    | some newRel =>
      (newRel :: r.1,
        if newRel ≠ relPosix then (relPosix, some newRel) :: r.2 else r.2)
    | none =>
      if exF relPosix then (relPosix :: r.1, r.2)
      else (r.1, (relPosix, none) :: r.2)

/-- `update_intendedfor_in_json` (lines 246–315), at the level of the
`"IntendedFor"` value `v` of an fmap JSON that contains the field: returns
`(changed, changes, written)` where `written` is the value written back
(`none` when nothing is written — unchanged list, or dry run). -/
def update_intendedfor_in_json (rel_map : List (Str × Str)) (exF : Str → Bool)
    (v : JVal) (dry_run : Bool) :
    Bool × List (Str × Option Str) × Option JVal :=
  let original := ensure_list v
  let r := update_intendedfor_core rel_map exF original
  let updated_unique := unique_preserve_order r.1
  if updated_unique = original then (false, [], none)
  else (true, r.2, if dry_run then none else some (JVal.l updated_unique))

/-! ### `remove_run_and_fix_intendedfor.py`: the `main` pipeline, for one
fmap JSON of one subject.

`main` computes the core plans, expands sidecars (existence checked before
any rename), applies all renames unless `--dry-run`, builds the rename map
from the core plans, and only then updates `IntendedFor` — so the
`exists_after_renames` oracle sees the post-rename tree in a real run but
the untouched tree in a dry run. -/
def run_for_fmap_json (files0 : FS) (subject : Str) (v : JVal)
    (dry_run : Bool) :
    Option (FS × (Bool × List (Str × Option Str) × Option JVal)) :=
  let corePlans := compute_rename_plans (fsKeys files0)
  let allPlans :=
    corePlans.foldl (fun acc p => acc ++ p :: sidecars_for_plan (fsKeys files0) p) []
  match apply_renames allPlans dry_run files0 with
  | none => none
  | some files1 =>
    let relMap := build_intendedfor_mapping corePlans
    let exF := fun rel =>
      exists_after_renames rel subject relMap fun p => (fsLookup files1 p).isSome
    some (files1, update_intendedfor_in_json relMap exF v dry_run)

/-! ### `convert_and_score_fracback.py`: d-prime with half-count correction -/

/-- The two corrected rates computed by `dprime` before the inverse-normal
transform (`convert_and_score_fracback.py` lines 337–354), under EXACT
RATIONAL ARITHMETIC: every division and subtraction is the exact rational
value, with no float64 rounding.  This is an idealization of the Python
program, which computes in IEEE-754 binary64 — see `dprime_rates_float`
for the rounded semantics, which differ at counts of `2^53` and above.
The sequential `if` statements of the source re-test the updated rate,
which the shadowing `let`s reproduce. -/
def dprime_rates (hits misses fas crs : Nat) : ℚ × ℚ :=
  let half_hit : ℚ := (1 / 2) / (max (hits + misses) 1 : Nat)
  let half_fa : ℚ := (1 / 2) / (max (fas + crs) 1 : Nat)
  let hit_rate : ℚ := (hits : ℚ) / (max (hits + misses) 1 : Nat)
  let hit_rate := if hit_rate = 1 then 1 - half_hit else hit_rate
  let hit_rate := if hit_rate = 0 then half_hit else hit_rate
  let fa_rate : ℚ := (fas : ℚ) / (max (fas + crs) 1 : Nat)
  let fa_rate := if fa_rate = 1 then 1 - half_fa else fa_rate
  let fa_rate := if fa_rate = 0 then half_fa else fa_rate
  (hit_rate, fa_rate)

/-- `dprime`, with the inverse normal CDF `norm.ppf` (an external SciPy
collaborator) taken as a parameter: `Z(hit_rate) - Z(fa_rate)`, in the
exact-rational idealization of the rates. -/
def dprime (ppf : ℚ → ℝ) (hits misses fas crs : Nat) : ℝ :=
  ppf (dprime_rates hits misses fas crs).1 - ppf (dprime_rates hits misses fas crs).2

/-!
The Python program actually computes `dprime` in IEEE-754 binary64.  The
following model captures that: values are the exact rationals denoted by
the stored doubles, and every arithmetic operation (CPython's `int / int`
true division, float division and float subtraction are all correctly
rounded) is the exact rational result passed through `fl`, round-to-nearest
with ties to even at 53 significand bits.  `fl` idealizes the exponent as
unbounded — overflow to infinity and subnormal quantization are not
modelled; they concern magnitudes beyond every value these formulas
produce from rates in `[0, 1]` and half-counts `0.5 / n` (the exponent
search fuel, 4200, covers all binary64-range exponents with a wide
margin). -/

/-- `⌊log₂ q⌋` for a positive rational, by fuel-bounded halving/doubling. -/
def qlog2F : ℕ → ℚ → ℤ
  | 0, _ => 0
  | fuel + 1, q =>
    if q < 1 then qlog2F fuel (2 * q) - 1
    else if q < 2 then 0
    else qlog2F fuel (q / 2) + 1

/-- Round a rational to the nearest integer, ties to the even integer
(IEEE-754 `roundTiesToEven` applied to a scaled significand). -/
def roundHalfEven (q : ℚ) : ℤ :=
  if q - ⌊q⌋ < 1 / 2 then ⌊q⌋
  else if (1 / 2 : ℚ) < q - ⌊q⌋ then ⌊q⌋ + 1
  else if ⌊q⌋ % 2 = 0 then ⌊q⌋ else ⌊q⌋ + 1

/-- Binary64 rounding: the nearest double (53-bit significand, ties to
even, unbounded exponent) to a rational, as an exact rational. -/
def fl (q : ℚ) : ℚ :=
  if q = 0 then 0
  else
    let e : ℤ := qlog2F 4200 |q| - 52
    let m : ℤ := roundHalfEven (|q| * (2 : ℚ) ^ (-e))
    (if q < 0 then -(m : ℚ) else (m : ℚ)) * (2 : ℚ) ^ e

/-- The two corrected rates of `dprime` under the program's float64
arithmetic: each division and subtraction of the source is the correctly
rounded (`fl`) exact result; `==` compares the stored doubles exactly. -/
def dprime_rates_float (hits misses fas crs : Nat) : ℚ × ℚ :=
  let nh : ℚ := (max (hits + misses) 1 : Nat)
  let nf : ℚ := (max (fas + crs) 1 : Nat)
  let half_hit := fl ((1 / 2) / nh)
  let half_fa := fl ((1 / 2) / nf)
  let hit_rate := fl ((hits : ℚ) / nh)
  let hit_rate := if hit_rate = 1 then fl (1 - half_hit) else hit_rate
  let hit_rate := if hit_rate = 0 then half_hit else hit_rate
  let fa_rate := fl ((fas : ℚ) / nf)
  let fa_rate := if fa_rate = 1 then fl (1 - half_fa) else fa_rate
  let fa_rate := if fa_rate = 0 then half_fa else fa_rate
  (hit_rate, fa_rate)

/-! ### `set_background_suppression_true.py` -/

/-- The JSON value stored under `"BackgroundSuppression"`: a boolean, a
string, or some other JSON value. -/
inductive BSVal where
  | b (v : Bool)
  | s (v : Str)
  | other
deriving DecidableEq, Repr

/-- `should_set_true`: the value represents a false that should be set to
`True` — boolean `False`, or a string equal to `"false"` after stripping
whitespace and lowercasing. -/
def should_set_true : BSVal → Bool
  | .b v => v = false
  | .s v => lowerStr (stripWS v) = "false".data
  | .other => false

/-- `update_background_suppression` (lines 50–79), at the level of the
`"BackgroundSuppression"` field (`none` = field absent): returns
`(changed, written)` where `written` is the new field value when the file
is rewritten (`none` on skip or dry run). -/
def update_background_suppression (field : Option BSVal) (dry_run : Bool) :
    Bool × Option BSVal :=
  match field with
  | none => (false, none)
  | some v =>
    if should_set_true v then
      if dry_run then (true, none) else (true, some (.b true))
    else (false, none)

/-! ### `update_perf_metadata.py`: `update_asl_json`

The sidecar is modelled by the fields the function reads and writes, with
JSON numbers as rationals (Python `/` on these counts is true division, and
`!=` is numeric comparison). -/

/-- The ASL sidecar fields read or written by `update_asl_json`. -/
structure AslJson where
  NumVolumes : Option ℚ
  TotalAcquiredPairs : Option ℚ
  RepetitionTime : Option ℚ
  RepetitionTimePreparation : Option ℚ
  VoxelSizeDim1 : Option ℚ
  VoxelSizeDim2 : Option ℚ
  VoxelSizeDim3 : Option ℚ
  AcquisitionVoxelSize : Option (List ℚ)
deriving DecidableEq, Repr

/-- `update_asl_json` step 1: `TotalAcquiredPairs = NumVolumes / 2` when
`NumVolumes` is present and the stored value differs. -/
def aslStep1 (d : AslJson) : AslJson × Bool :=
  match d.NumVolumes with
  | none => (d, false)
  | some nv =>
    if d.TotalAcquiredPairs = some (nv / 2) then (d, false)
    else ({ d with TotalAcquiredPairs := some (nv / 2) }, true)

/-- `update_asl_json` step 2: mirror `RepetitionTime` into
`RepetitionTimePreparation` when present and different. -/
def aslStep2 (d : AslJson) : AslJson × Bool :=
  match d.RepetitionTime with
  | none => (d, false)
  | some rt =>
    if d.RepetitionTimePreparation = some rt then (d, false)
    else ({ d with RepetitionTimePreparation := some rt }, true)

/-- `update_asl_json` step 3: assemble `AcquisitionVoxelSize` from the
three per-axis sizes when all are present and the stored list differs. -/
def aslStep3 (d : AslJson) : AslJson × Bool :=
  match d.VoxelSizeDim1, d.VoxelSizeDim2, d.VoxelSizeDim3 with
  | some v1, some v2, some v3 =>
    if d.AcquisitionVoxelSize = some [v1, v2, v3] then (d, false)
    else ({ d with AcquisitionVoxelSize := some [v1, v2, v3] }, true)
  | _, _, _ => (d, false)

/-- `update_asl_json` (lines 9–58): apply the three field syncs and write
the file back only when some field actually changed; `some d'` is the
rewritten sidecar, `none` means no write. -/
def update_asl_json (d : AslJson) : Option AslJson :=
  let r1 := aslStep1 d
  let r2 := aslStep2 r1.1
  let r3 := aslStep3 r2.1
  if r1.2 || r2.2 || r3.2 then some r3.1 else none

/-! ### `cubids_group_rename.py`: `unify_acq` and `modify_acq` -/

/-- Python `s.split(sep)` for a non-empty literal separator, fuel-indexed:
split at each leftmost non-overlapping occurrence. -/
def pySplitGo (sep : Str) : Nat → Str → List Str
  | 0, s => [s]
  | _, [] => [[]]
  | fuel + 1, c :: cs =>
    if isStart sep (c :: cs) then
      [] :: pySplitGo sep fuel ((c :: cs).drop sep.length)
    else
      match pySplitGo sep fuel cs with
      | [] => [[c]]
      | p :: ps => (c :: p) :: ps

/-- Python `s.split(sep)` (for non-empty `sep`). -/
def pySplit (sep s : Str) : List Str := pySplitGo sep s.length s

/-- `re.sub(re.escape(key), rep, s)` for an empty `key`: the empty pattern
matches at every position, including the end. -/
def subEmptyKey (rep : Str) : Str → Str
  | [] => rep
  | c :: cs => rep ++ c :: subEmptyKey rep cs

/-- `re.sub(re.escape(key), rep, s)` for a non-empty literal `key`,
fuel-indexed: replace each leftmost non-overlapping occurrence. -/
def pyReplaceGo (key rep : Str) : Nat → Str → Str
  | 0, s => s
  | _, [] => []
  | fuel + 1, c :: cs =>
    if isStart key (c :: cs) then
      rep ++ pyReplaceGo key rep fuel ((c :: cs).drop key.length)
    else c :: pyReplaceGo key rep fuel cs

/-- `re.sub(re.escape(key), rep, s)`: literal global replacement. -/
def pyReplace (key rep s : Str) : Str :=
  if key = [] then subEmptyKey rep s else pyReplaceGo key rep s.length s

/-- `unify_acq`: merge two acquisition strings, preventing redundancy by
substring containment. -/
def unify_acq (existing_acq new_acq : Str) : Str :=
  if existing_acq = [] then new_acq
  else if isSub new_acq existing_acq then existing_acq
  else if isSub existing_acq new_acq then new_acq
  else existing_acq ++ '_' :: new_acq

/-- The literal token `VARIANT`. -/
def VARIANT : Str := "VARIANT".data

/-- `merge_variants` (inner helper of `modify_acq`): split on `"VARIANT"`;
with fewer than two parts return the string unchanged, otherwise keep the
first occurrence and concatenate the remaining parts after it. -/
def merge_variants (acq_str : Str) : Str :=
  match pySplit VARIANT acq_str with
  | [] => acq_str
  | [_] => acq_str
  | p :: ps => p ++ VARIANT ++ ps.flatten

/-- Stable insertion, descending by key length: the new pair goes after
every pair whose key is at least as long (Python `sorted` is stable). -/
def insertByLen (x : Str × Str) : List (Str × Str) → List (Str × Str)
  | [] => [x]
  | y :: ys =>
    if x.1.length ≤ y.1.length then y :: insertByLen x ys else x :: y :: ys

/-- `sorted(acq_rename_map.items(), key=lambda x: -len(x[0]))`: a stable
sort by descending key length. -/
def sortByLenDesc (m : List (Str × Str)) : List (Str × Str) :=
  m.foldl (fun acc x => insertByLen x acc) []

/-- `modify_acq`: unify the two acquisition strings, apply the rename map
(when non-empty — `if acq_rename_map:`) in descending order of key length,
then merge `VARIANT` tokens.  `new_acq = new_acq or ""` makes a `None`
second argument the empty string, so the model takes a plain string. -/
def modify_acq (existing_acq new_acq : Str)
    (acq_rename_map : List (Str × Str)) : Str :=
  let merged := unify_acq existing_acq new_acq
  let merged :=
    if acq_rename_map = [] then merged
    else
      (sortByLenDesc acq_rename_map).foldl
        (fun s kv => pyReplace kv.1 kv.2 s) merged
  merge_variants merged

/-- Count of leftmost non-overlapping occurrences of a non-empty pattern. -/
def countOccGo (pat : Str) : Nat → Str → Nat
  | 0, _ => 0
  | _, [] => 0
  | fuel + 1, c :: cs =>
    if isStart pat (c :: cs) then
      countOccGo pat fuel ((c :: cs).drop pat.length) + 1
    else countOccGo pat fuel cs

/-- Count of leftmost non-overlapping occurrences of a non-empty pattern. -/
def countOcc (pat s : Str) : Nat := countOccGo pat s.length s

/-- Python `sep.join(parts)` (proof gadget relating `pySplit` back to its
input). -/
def joinWithSep (sep : Str) : List Str → Str
  | [] => []
  | [p] => p
  | p :: ps => p ++ sep ++ joinWithSep sep ps

/-- One corrected rate of `dprime` in the exact-rational idealization:
`a / max (a+b) 1`, with the half-count substitution applied at exactly 1
and then at exactly 0 (proof gadget; both components of `dprime_rates`
have this form). -/
def correctedRate (a b : Nat) : ℚ :=
  let n : ℚ := (max (a + b) 1 : Nat)
  let r : ℚ := (a : ℚ) / n
  let r := if r = 1 then 1 - (1 / 2) / n else r
  let r := if r = 0 then (1 / 2) / n else r
  r

/-!
## Theorems
-/

/-- The two components of `dprime_rates` are instances of `correctedRate`. -/
theorem dprime_rates_eq (hits misses fas crs : Nat) :
    dprime_rates hits misses fas crs =
      (correctedRate hits misses, correctedRate fas crs) := rfl

/-- A corrected rate is strictly between 0 and 1. -/
theorem correctedRate_pos_lt_one (a b : Nat) :
    0 < correctedRate a b ∧ correctedRate a b < 1 := by
  unfold correctedRate
  dsimp only
  have hn1 : (1 : ℚ) ≤ ((max (a + b) 1 : Nat) : ℚ) := by
    exact_mod_cast Nat.le_max_right (a + b) 1
  have hn : (0 : ℚ) < ((max (a + b) 1 : Nat) : ℚ) := lt_of_lt_of_le one_pos hn1
  set n : ℚ := ((max (a + b) 1 : Nat) : ℚ) with hndef
  have hhalf0 : 0 < (1 / 2) / n := by positivity
  have hhalf1 : (1 / 2) / n < 1 := by
    rw [div_lt_one hn]
    calc (1 / 2 : ℚ) < 1 := by norm_num
      _ ≤ n := hn1
  have hr0 : 0 ≤ (a : ℚ) / n := by positivity
  have hr1 : (a : ℚ) / n ≤ 1 := by
    rw [div_le_one hn, hndef]
    exact_mod_cast le_trans (Nat.le_add_right a b) (Nat.le_max_left (a + b) 1)
  by_cases h1 : (a : ℚ) / n = 1
  · have hne : 1 - (1 / 2) / n ≠ 0 := by
      intro h
      have : (1 / 2) / n = 1 := by linarith
      exact absurd this (ne_of_lt hhalf1)
    rw [h1, if_pos rfl, if_neg hne]
    constructor
    · linarith
    · linarith
  · simp only [if_neg h1]
    by_cases h0 : (a : ℚ) / n = 0
    · simp only [h0, if_pos rfl]
      exact ⟨hhalf0, hhalf1⟩
    · simp only [if_neg h0]
      exact ⟨lt_of_le_of_ne hr0 (Ne.symm h0), lt_of_le_of_ne hr1 h1⟩

/-- `qlog2F` with enough fuel computes the binade: if
`2^k ≤ q < 2^(k+1)` then it returns `k`. -/
theorem qlog2F_eq : ∀ (fuel : ℕ) (q : ℚ) (k : ℤ), (2:ℚ)^k ≤ q →
    q < (2:ℚ)^(k+1) → k.natAbs < fuel → qlog2F fuel q = k := by
  intro fuel
  induction fuel with
  | zero => intro q k _ _ hf; exact absurd hf (by omega)
  | succ fuel ih =>
    intro q k h1 h2 hf
    rw [qlog2F]
    by_cases hq1 : q < 1
    · have hkneg : k + 1 ≤ 0 := by
        by_contra hpos
        push_neg at hpos
        have h0k : (0:ℤ) ≤ k := by omega
        have : (1:ℚ) ≤ (2:ℚ)^k := one_le_zpow₀ one_le_two h0k
        linarith
      have h1' : (2:ℚ)^(k+1) ≤ 2*q := by
        rw [zpow_add_one₀ (two_ne_zero)]
        linarith
      have h2' : 2*q < (2:ℚ)^(k+1+1) := by
        rw [zpow_add_one₀ (two_ne_zero)]
        linarith
      have hf' : (k+1).natAbs < fuel := by omega
      rw [if_pos hq1, ih (2*q) (k+1) h1' h2' hf']
      ring
    · by_cases hq2 : q < 2
      · have hk0 : k = 0 := by
          rcases lt_trichotomy k 0 with hk | hk | hk
          · exfalso
            have hle : k + 1 ≤ 0 := by omega
            have : (2:ℚ)^(k+1) ≤ (2:ℚ)^(0:ℤ) := zpow_le_zpow_right₀ one_le_two hle
            rw [zpow_zero] at this
            push_neg at hq1
            linarith
          · exact hk
          · exfalso
            have hle : (1:ℤ) ≤ k := by omega
            have : (2:ℚ)^(1:ℤ) ≤ (2:ℚ)^k := zpow_le_zpow_right₀ one_le_two hle
            rw [zpow_one] at this
            linarith
        rw [if_neg hq1, if_pos hq2, hk0]
      · have hk1 : (1:ℤ) ≤ k := by
          by_contra hlt
          push_neg at hlt
          have hle : k + 1 ≤ 1 := by omega
          have : (2:ℚ)^(k+1) ≤ (2:ℚ)^(1:ℤ) := zpow_le_zpow_right₀ one_le_two hle
          rw [zpow_one] at this
          push_neg at hq2
          linarith
        have hsplit : (2:ℚ)^k = (2:ℚ)^(k-1) * 2 := by
          rw [← zpow_add_one₀ (two_ne_zero : (2:ℚ) ≠ 0) (k-1)]
          norm_num
        have h1' : (2:ℚ)^(k-1) ≤ q/2 := by
          rw [hsplit] at h1
          linarith
        have h2' : q/2 < (2:ℚ)^(k-1+1) := by
          have hkk : k - 1 + 1 = k := by ring
          rw [hkk]
          have h2'' : q < (2:ℚ)^k * 2 := by
            rw [← zpow_add_one₀ (two_ne_zero : (2:ℚ) ≠ 0) k]
            exact h2
          linarith
        have hf' : (k-1).natAbs < fuel := by omega
        rw [if_neg hq1, if_neg hq2, ih (q/2) (k-1) h1' h2' hf']
        ring

/-- Evaluation rule for `fl` at a positive rational: locate the binade,
round the scaled significand, and rescale. -/
theorem fl_eq_of (q v : ℚ) (k m : ℤ)
    (h0 : 0 < q)
    (hk1 : (2:ℚ)^k ≤ q) (hk2 : q < (2:ℚ)^(k+1)) (hkr : k.natAbs < 4200)
    (hm : roundHalfEven (q * (2:ℚ)^(-(k - 52))) = m)
    (hv : (m : ℚ) * (2:ℚ)^(k - 52) = v) :
    fl q = v := by
  unfold fl
  rw [if_neg (ne_of_gt h0)]
  dsimp only
  rw [abs_of_pos h0, qlog2F_eq 4200 q k hk1 hk2 hkr, if_neg (not_lt.2 h0.le), hm, hv]

/-- The significand of `1` rounds exactly. -/
theorem rheOne : roundHalfEven ((1:ℚ) * (2:ℚ)^(-((0:ℤ) - 52))) = 2^52 := by
  have harg : (1:ℚ) * (2:ℚ)^(-((0:ℤ) - 52)) = ((2^52 : ℤ) : ℚ) := by norm_num
  rw [roundHalfEven, harg, Int.floor_intCast]
  norm_num

/-- The significand of `2^(-54)` rounds exactly. -/
theorem rheHalfPow : roundHalfEven ((1:ℚ)/2^54 * (2:ℚ)^(-((-54:ℤ) - 52))) = 2^52 := by
  have harg : (1:ℚ)/2^54 * (2:ℚ)^(-((-54:ℤ) - 52)) = ((2^52 : ℤ) : ℚ) := by norm_num
  rw [roundHalfEven, harg, Int.floor_intCast]
  norm_num

/-- The significand of `1 - 2^(-54)` is `2^53 - 1/2`: an exact tie, and
`2^53 - 1` is odd, so ties-to-even rounds UP to `2^53`. -/
theorem rheTie : roundHalfEven ((1 - (1:ℚ)/2^54) * (2:ℚ)^(-((-1:ℤ) - 52))) = 2^53 := by
  have hfloor : ⌊(1 - (1:ℚ)/2^54) * (2:ℚ)^(-((-1:ℤ) - 52))⌋ = 2^53 - 1 := by
    rw [Int.floor_eq_iff]
    constructor <;> norm_num
  rw [roundHalfEven, hfloor]
  have hfrac : (1 - (1:ℚ)/2^54) * (2:ℚ)^(-((-1:ℤ) - 52)) - ((2^53 - 1 : ℤ) : ℚ)
      = 1/2 := by
    push_cast
    norm_num
  rw [hfrac]
  norm_num

/-- `1` is a double: `fl` fixes it. -/
theorem fl_one : fl (1:ℚ) = 1 :=
  fl_eq_of 1 1 0 (2^52) one_pos (by norm_num) (by norm_num) (by decide) rheOne
    (by norm_num)

/-- `2^(-54)` (the exact value of `0.5 / 2^53`) is a double: `fl` fixes
it. -/
theorem fl_two_pow_neg54 : fl ((1:ℚ)/2^54) = 1/2^54 :=
  fl_eq_of _ _ (-54) (2^52) (by norm_num) (by norm_num) (by norm_num) (by decide)
    rheHalfPow (by norm_num)

/-- The float64 correction collapses: `1 - 2^(-54)` lies exactly halfway
between the doubles `1 - 2^(-53)` and `1`, and the tie goes to the even
significand, which is `1.0`. -/
theorem fl_correction_collapses : fl (1 - (1:ℚ)/2^54) = 1 :=
  fl_eq_of _ _ (-1) (2^53) (by norm_num) (by norm_num) (by norm_num) (by decide)
    rheTie (by norm_num)

/-- At `hits = 2^53, misses = 0` the program's corrected float64 hit rate
is exactly `1`: the rate `2^53 / 2^53 == 1.0` triggers the correction, and
`1 - 0.5/2^53` rounds back to `1.0`. -/
theorem dprime_rates_float_sat : (dprime_rates_float (2 ^ 53) 0 1 1).1 = 1 := by
  have hmax : ((max (2 ^ 53 + 0) 1 : ℕ) : ℚ) = 2 ^ 53 := by norm_num
  have hcast : ((2 ^ 53 : ℕ) : ℚ) = 2 ^ 53 := by norm_num
  have harg : (2:ℚ) ^ 53 / (2:ℚ) ^ 53 = 1 := by norm_num
  have hhalfarg : (1:ℚ) / 2 / (2:ℚ) ^ 53 = 1/2^54 := by norm_num
  simp only [dprime_rates_float, hmax, hcast, harg, hhalfarg, fl_one,
    fl_two_pow_neg54, fl_correction_collapses]
  norm_num

/-- C4 counterexample: under the program's float64 arithmetic the
half-count-corrected hit rate at `hits = 2^53, misses = 0` equals exactly
`1` — it does not lie strictly between 0 and 1, so `norm.ppf` receives
`1.0` and the returned d-prime is infinite, refuting "finite for every
non-negative integer input". -/
theorem dprime_float_rate_saturates_counterexample :
    (dprime_rates_float (2 ^ 53) 0 1 1).1 = 1 ∧
    ¬((dprime_rates_float (2 ^ 53) 0 1 1).1 < 1) :=
  ⟨dprime_rates_float_sat, by rw [dprime_rates_float_sat]; exact lt_irrefl 1⟩

/-- C4 (amended): under exact rational arithmetic both corrected rates of
`dprime` lie strictly between 0 and 1 for all non-negative integer inputs,
and the transform receives exactly those rates; under the program's IEEE-754
float64 arithmetic this bound fails for large counts — at `hits = 2^53,
misses = 0` the corrected hit rate re-saturates to exactly `1`. -/
theorem dprime_rates_exact_vs_float :
    (∀ hits misses fas crs : Nat,
      0 < (dprime_rates hits misses fas crs).1 ∧
      (dprime_rates hits misses fas crs).1 < 1 ∧
      0 < (dprime_rates hits misses fas crs).2 ∧
      (dprime_rates hits misses fas crs).2 < 1 ∧
      ∀ ppf : ℚ → ℝ, dprime ppf hits misses fas crs =
        ppf (dprime_rates hits misses fas crs).1 -
          ppf (dprime_rates hits misses fas crs).2) ∧
    (dprime_rates_float (2 ^ 53) 0 1 1).1 = 1 := by
  refine ⟨?_, dprime_rates_float_sat⟩
  intro hits misses fas crs
  rw [dprime_rates_eq]
  obtain ⟨h1, h2⟩ := correctedRate_pos_lt_one hits misses
  obtain ⟨h3, h4⟩ := correctedRate_pos_lt_one fas crs
  exact ⟨h1, h2, h3, h4, fun ppf => rfl⟩

/-- C3: rounding a valid time to the nearest hour zeroes the minute,
second and microsecond; an offset past the hour strictly below 30 minutes
keeps the hour, an offset of at least 30 minutes increments it mod 24, and
`23:31:00` rounds to `00:00:00`. -/
theorem round_to_nearest_hour_spec (t : PTime) (hh : t.hour ≤ 23)
    (hm : t.minute ≤ 59) (hs : t.second ≤ 59) :
    (round_to_nearest_hour t).minute = 0 ∧
    (round_to_nearest_hour t).second = 0 ∧
    (round_to_nearest_hour t).microsecond = 0 ∧
    ((t.minute * 60 + t.second) * 1000000 + t.microsecond < 30 * 60 * 1000000 →
      (round_to_nearest_hour t).hour = t.hour) ∧
    (30 * 60 * 1000000 ≤ (t.minute * 60 + t.second) * 1000000 + t.microsecond →
      (round_to_nearest_hour t).hour = (t.hour + 1) % 24) ∧
    round_to_nearest_hour ⟨23, 31, 0, 0⟩ = ⟨0, 0, 0, 0⟩ := by
  unfold round_to_nearest_hour
  by_cases hoff :
      (t.minute * 60 + t.second) * 1000000 + t.microsecond ≥ 30 * 60 * 1000000 <;>
    simp [hoff]

/-- Witness for `round_to_nearest_hour_spec` at `23:31:00`. -/
theorem round_to_nearest_hour_spec_witness :
    (round_to_nearest_hour ⟨23, 31, 0, 0⟩).minute = 0 ∧
    (round_to_nearest_hour ⟨23, 31, 0, 0⟩).second = 0 ∧
    (round_to_nearest_hour ⟨23, 31, 0, 0⟩).microsecond = 0 ∧
    ((31 * 60 + 0) * 1000000 + 0 < 30 * 60 * 1000000 →
      (round_to_nearest_hour ⟨23, 31, 0, 0⟩).hour = 23) ∧
    (30 * 60 * 1000000 ≤ (31 * 60 + 0) * 1000000 + 0 →
      (round_to_nearest_hour ⟨23, 31, 0, 0⟩).hour = (23 + 1) % 24) ∧
    round_to_nearest_hour ⟨23, 31, 0, 0⟩ = ⟨0, 0, 0, 0⟩ :=
  round_to_nearest_hour_spec ⟨23, 31, 0, 0⟩ (by decide) (by decide) (by decide)

/-- C8: a sidecar processed by `set_background_suppression_true` is
modified exactly when its `BackgroundSuppression` value is boolean `false`
or a string equal to `"false"` after stripping whitespace and lowercasing;
the written value is then boolean `true`, and in every other case
(field absent, already true, any other value) nothing is written. -/
theorem background_suppression_flip_spec :
    (∀ v : BSVal,
      (update_background_suppression (some v) false = (true, some (BSVal.b true)))
        ↔ should_set_true v = true) ∧
    (∀ v : BSVal, should_set_true v = true ↔
      v = BSVal.b false ∨ ∃ s, v = BSVal.s s ∧ lowerStr (stripWS s) = "false".data) ∧
    (∀ v : BSVal, should_set_true v = false →
      update_background_suppression (some v) false = (false, none)) ∧
    update_background_suppression none false = (false, none) := by
  refine ⟨?_, ?_, ?_, rfl⟩
  · intro v
    unfold update_background_suppression
    by_cases h : should_set_true v <;> simp [h]
  · intro v
    cases v with
    | b bv => cases bv <;> simp [should_set_true]
    | s sv => simp [should_set_true]
    | other => simp [should_set_true]
  · intro v h
    unfold update_background_suppression
    simp [h]

/-- Witness for `background_suppression_flip_spec`: a non-false value is
left untouched. -/
theorem background_suppression_flip_spec_witness :
    update_background_suppression (some BSVal.other) false = (false, none) :=
  background_suppression_flip_spec.2.2.1 BSVal.other (by decide)

/-! ### `unique_preserve_order` and the `IntendedFor` entry loop -/

/-- The deduplicated list is a sublist of the input. -/
theorem uniquePreserveGo_sublist (items seen : List Str) :
    (uniquePreserveGo items seen).Sublist items := by
  induction items generalizing seen with
  | nil => simp [uniquePreserveGo]
  | cons it rest ih =>
    unfold uniquePreserveGo
    by_cases h : it ∈ seen
    · simp only [if_pos h]
      exact (ih seen).trans (List.sublist_cons_self it rest)
    · simp only [if_neg h]
      exact (ih (it :: seen)).cons₂ it

/-- Membership in the deduplicated list. -/
theorem uniquePreserveGo_mem (items seen : List Str) (x : Str) :
    x ∈ uniquePreserveGo items seen ↔ x ∈ items ∧ x ∉ seen := by
  induction items generalizing seen with
  | nil => simp [uniquePreserveGo]
  | cons it rest ih =>
    unfold uniquePreserveGo
    by_cases h : it ∈ seen
    · simp only [if_pos h, ih, List.mem_cons]
      by_cases hxit : x = it
      · subst hxit
        simp [h]
      · simp [hxit]
    · simp only [if_neg h, List.mem_cons, ih]
      by_cases hxit : x = it
      · subst hxit
        simp [h]
      · simp [hxit]

/-- The deduplicated list has no duplicates. -/
theorem uniquePreserveGo_nodup (items seen : List Str) :
    (uniquePreserveGo items seen).Nodup := by
  induction items generalizing seen with
  | nil => simp [uniquePreserveGo]
  | cons it rest ih =>
    unfold uniquePreserveGo
    by_cases h : it ∈ seen
    · simp only [if_pos h]
      exact ih seen
    · simp only [if_neg h]
      refine List.Nodup.cons ?_ (ih (it :: seen))
      intro hm
      exact ((uniquePreserveGo_mem rest (it :: seen) it).1 hm).2 (List.mem_cons_self it seen)

/-- The updated list built by the entry loop of `update_intendedfor_in_json`
is the order-preserving `filterMap` of the original entries: substitute via
the map, else keep (normalized) when still existing, else drop. -/
theorem update_intendedfor_core_fst (rel_map : List (Str × Str))
    (exF : Str → Bool) (items : List Str) :
    (update_intendedfor_core rel_map exF items).1 =
      items.filterMap fun rel =>
        match dictLookup rel_map (posixNorm rel) with
        | some newRel => some newRel
        | none =>
          if exF (posixNorm rel) then some (posixNorm rel) else none := by
  induction items with
  | nil => rfl
  | cons rel rest ih =>
    unfold update_intendedfor_core
    simp only [List.filterMap_cons]
    cases h : dictLookup rel_map (posixNorm rel) with
    | some newRel => simp [h, ih]
    | none =>
      by_cases hex : exF (posixNorm rel)
      · simp [h, hex, ih]
      · simp [h, hex, ih]

/-- C1: with `A` a key of the rename map (mapped to `B`) and `C` unmapped
and not existing after the renames, the `IntendedFor` list `[A, C]` is
rewritten to `[B]` (`A`→`B` substitution, `C` dropped); in general the
updated list is the order-preserving per-entry substitute/keep/drop
`filterMap` of the original entries, deduplicated keeping first
occurrences. -/
theorem intendedfor_update_spec (rel_map : List (Str × Str))
    (exF : Str → Bool) (A B C : Str)
    (hA : dictLookup rel_map (posixNorm A) = some B)
    (hC : dictLookup rel_map (posixNorm C) = none)
    (hCex : exF (posixNorm C) = false) :
    (update_intendedfor_in_json rel_map exF (JVal.l [A, C]) false).1 = true ∧
    (update_intendedfor_in_json rel_map exF (JVal.l [A, C]) false).2.2 =
      some (JVal.l [B]) ∧
    (∀ items, (update_intendedfor_core rel_map exF items).1 =
      items.filterMap fun rel =>
        match dictLookup rel_map (posixNorm rel) with
        | some newRel => some newRel
        | none =>
          if exF (posixNorm rel) then some (posixNorm rel) else none) ∧
    (∀ items : List Str, (unique_preserve_order items).Sublist items ∧
      (unique_preserve_order items).Nodup ∧
      ∀ x, x ∈ unique_preserve_order items ↔ x ∈ items) := by
  have hcore : (update_intendedfor_core rel_map exF [A, C]).1 = [B] := by
    rw [update_intendedfor_core_fst]
    simp [hA, hC, hCex]
  have hne : unique_preserve_order [B] ≠ [A, C] := by
    intro h
    have := congrArg List.length h
    simp [unique_preserve_order, uniquePreserveGo] at this
  refine ⟨?_, ?_, update_intendedfor_core_fst rel_map exF, ?_⟩
  · unfold update_intendedfor_in_json
    simp only [ensure_list, hcore, if_neg hne]
  · unfold update_intendedfor_in_json
    simp only [ensure_list, hcore, if_neg hne]
    simp [unique_preserve_order, uniquePreserveGo]
  · intro items
    refine ⟨uniquePreserveGo_sublist items [], uniquePreserveGo_nodup items [], ?_⟩
    intro x
    rw [unique_preserve_order, uniquePreserveGo_mem]
    simp

/-- Witness for `intendedfor_update_spec`: the map `{a/b.nii ↦ a/c.nii}`
with a stale entry `x/y.nii` rewrites `[a/b.nii, x/y.nii]` to
`[a/c.nii]`. -/
theorem intendedfor_update_spec_witness :
    (update_intendedfor_in_json [("a/b.nii".data, "a/c.nii".data)]
        (fun _ => false) (JVal.l ["a/b.nii".data, "x/y.nii".data]) false).1 = true ∧
    (update_intendedfor_in_json [("a/b.nii".data, "a/c.nii".data)]
        (fun _ => false) (JVal.l ["a/b.nii".data, "x/y.nii".data]) false).2.2 =
      some (JVal.l ["a/c.nii".data]) :=
  ⟨(intendedfor_update_spec [("a/b.nii".data, "a/c.nii".data)] (fun _ => false)
      ("a/b.nii".data) ("a/c.nii".data) ("x/y.nii".data)
      (by decide) (by decide) rfl).1,
   (intendedfor_update_spec [("a/b.nii".data, "a/c.nii".data)] (fun _ => false)
      ("a/b.nii".data) ("a/c.nii".data) ("x/y.nii".data)
      (by decide) (by decide) rfl).2.1⟩

/-- C10 counterexample: the string-valued `IntendedFor` entry `./a.nii` is
unmapped and the file it refers to exists, yet the JSON is rewritten
(to the normalized singleton list `["a.nii"]`), because the entry is not in
posix-normal form.  The claim that such a file is left unchanged is
therefore false. -/
theorem intendedfor_string_kept_counterexample :
    update_intendedfor_in_json [] (fun _ => true) (JVal.s "./a.nii".data) false =
      (true, [], some (JVal.l ["a.nii".data])) ∧
    update_intendedfor_in_json [] (fun _ => true) (JVal.s "./a.nii".data) false ≠
      (false, [], none) := by
  constructor
  · decide
  · decide

/-- C10 (amended): whenever `update_intendedfor_in_json` writes a changed
`IntendedFor` value back, the stored value is a JSON list of strings, even
when only one entry remains and even when the original value was a single
string; a string-valued `IntendedFor` whose sole entry is unmapped, still
exists, and is already in posix-normal form is left unchanged (no write),
so the string form survives only when nothing changed. -/
theorem intendedfor_write_always_list (rel_map : List (Str × Str))
    (exF : Str → Bool) :
    (∀ (v : JVal) (dry_run : Bool) (w : JVal),
      (update_intendedfor_in_json rel_map exF v dry_run).2.2 = some w →
      ∃ xs, w = JVal.l xs) ∧
    (∀ p : Str, dictLookup rel_map p = none → exF p = true → posixNorm p = p →
      ∀ dry_run, update_intendedfor_in_json rel_map exF (JVal.s p) dry_run =
        (false, [], none)) := by
  constructor
  · intro v dry_run w hw
    simp only [update_intendedfor_in_json] at hw
    by_cases heq :
        unique_preserve_order (update_intendedfor_core rel_map exF (ensure_list v)).1 =
          ensure_list v
    · rw [if_pos heq] at hw
      simp at hw
    · rw [if_neg heq] at hw
      cases dry_run with
      | true => simp at hw
      | false =>
        rw [if_neg (by decide : ¬(false = true))] at hw
        exact ⟨_, (Option.some.inj hw).symm⟩
  · intro p hmap hex hnorm dry_run
    have hcore : update_intendedfor_core rel_map exF [p] = ([p], []) := by
      simp [update_intendedfor_core, hnorm, hmap, hex]
    simp [update_intendedfor_in_json, ensure_list, hcore, unique_preserve_order,
      uniquePreserveGo]

/-- Witness for `intendedfor_write_always_list`: a posix-normal, unmapped,
still-existing string entry is untouched, and when a write does happen the
written value is a list. -/
theorem intendedfor_write_always_list_witness :
    update_intendedfor_in_json [] (fun _ => true) (JVal.s "a.nii".data) false =
      (false, [], none) ∧
    ∃ xs, JVal.l ["a.nii".data] = JVal.l xs :=
  ⟨(intendedfor_write_always_list [] (fun _ => true)).2 ("a.nii".data)
      (by decide) rfl (by decide) false,
   (intendedfor_write_always_list [] (fun _ => true)).1
      (JVal.s "./a.nii".data) false (JVal.l ["a.nii".data]) (by decide)⟩

/-! ### Rename planning and application: collision policy -/

/-- A path is absent from a filesystem state iff `fsLookup` finds nothing. -/
theorem fsLookup_none_iff (st : FS) (p : FPath) :
    fsLookup st p = none ↔ p ∉ fsKeys st := by
  induction st with
  | nil => simp [fsLookup, fsKeys]
  | cons e st ih =>
    obtain ⟨q, c⟩ := e
    by_cases hq : q = p
    · subst hq
      simp [fsLookup, fsKeys]
    · simp [fsLookup, fsKeys, hq, ih, Ne.symm hq]

/-- Erasing a path yields a sublist of the state. -/
theorem fsErase_sublist (st : FS) (p : FPath) : (fsErase st p).Sublist st := by
  induction st with
  | nil => simp [fsErase]
  | cons e st ih =>
    obtain ⟨q, c⟩ := e
    by_cases hq : q = p
    · simp only [fsErase, if_pos hq]
      exact List.sublist_cons_self (q, c) st
    · simp only [fsErase, if_neg hq]
      exact ih.cons₂ (q, c)

/-- A state with an entry at `p` is a permutation of that entry consed onto
the state with the entry erased. -/
theorem fsLookup_some_perm (st : FS) (p : FPath) (c : Nat)
    (h : fsLookup st p = some c) : st.Perm ((p, c) :: fsErase st p) := by
  induction st with
  | nil => simp [fsLookup] at h
  | cons e st ih =>
    obtain ⟨q, d⟩ := e
    by_cases hq : q = p
    · subst hq
      rw [fsLookup, if_pos rfl] at h
      obtain rfl := Option.some.inj h
      simp [fsErase]
    · rw [fsLookup, if_neg hq] at h
      simp only [fsErase, if_neg hq]
      exact ((ih h).cons (q, d)).trans (List.Perm.swap (p, c) (q, d) _)

/-- One application step preserves the multiset of file contents and the
distinctness of paths. -/
theorem applyStep_preserves (st st2 : FS) (plan : RenamePlan)
    (hnd : (fsKeys st).Nodup) (h : applyStep st plan = some st2) :
    (st2.map Prod.snd).Perm (st.map Prod.snd) ∧ (fsKeys st2).Nodup := by
  unfold applyStep at h
  by_cases hdst : (fsLookup st plan.dst).isSome
  · rw [if_pos hdst] at h
    obtain rfl := Option.some.inj h
    exact ⟨List.Perm.refl _, hnd⟩
  · rw [if_neg hdst] at h
    cases hsrc : fsLookup st plan.src with
    | none => rw [hsrc] at h; exact absurd h (by simp)
    | some c =>
      rw [hsrc] at h
      obtain rfl := Option.some.inj h
      have hperm := fsLookup_some_perm st plan.src c hsrc
      constructor
      · have := (hperm.map Prod.snd).symm
        simpa using this
      · have hdn : plan.dst ∉ fsKeys st := by
          rw [← fsLookup_none_iff]
          cases hl : fsLookup st plan.dst with
          | none => rfl
          | some d => rw [hl] at hdst; simp at hdst
        have hsub : (fsKeys (fsErase st plan.src)).Sublist (fsKeys st) :=
          (fsErase_sublist st plan.src).map Prod.fst
        refine List.Nodup.cons ?_ (hsub.nodup hnd)
        intro hc
        exact hdn (hsub.mem hc)

/-- `apply_renames` (non-dry-run) preserves the multiset of contents — no
file is overwritten — and keeps paths distinct. -/
theorem apply_renames_preserves (plans : List RenamePlan) :
    ∀ st st' : FS, (fsKeys st).Nodup → apply_renames plans false st = some st' →
      (st'.map Prod.snd).Perm (st.map Prod.snd) ∧ (fsKeys st').Nodup := by
  induction plans with
  | nil =>
    intro st st' hnd h
    rw [apply_renames] at h
    obtain rfl := Option.some.inj h
    exact ⟨List.Perm.refl _, hnd⟩
  | cons plan rest ih =>
    intro st st' hnd h
    rw [apply_renames, if_neg (by decide : ¬(false = true))] at h
    cases hstep : applyStep st plan with
    | none => rw [hstep] at h; exact absurd h (by simp)
    | some st2 =>
      rw [hstep] at h
      obtain ⟨hp2, hn2⟩ := applyStep_preserves st st2 plan hnd hstep
      obtain ⟨hp', hn'⟩ := ih st2 st' hn2 h
      exact ⟨hp'.trans hp2, hn'⟩

/-- The planning-fold invariant: the planned-destinations accumulator is
exactly the list of planned destinations, it has no duplicates, and no
planned destination exists on disk. -/
theorem planStep_inv (files : List FPath) (acc : List RenamePlan × List FPath)
    (src : FPath) (h1 : acc.2 = acc.1.map RenamePlan.dst) (h2 : acc.2.Nodup)
    (h3 : ∀ p ∈ acc.1, p.dst ∉ files) :
    (planStep files acc src).2 = (planStep files acc src).1.map RenamePlan.dst ∧
    (planStep files acc src).2.Nodup ∧
    ∀ p ∈ (planStep files acc src).1, p.dst ∉ files := by
  unfold planStep
  dsimp only
  split
  · split
    · exact ⟨h1, h2, h3⟩
    · split
      · exact ⟨h1, h2, h3⟩
      · next hcol =>
        push_neg at hcol
        refine ⟨by simp [h1], ?_, ?_⟩
        · rw [List.nodup_append]
          refine ⟨h2, List.nodup_singleton _, ?_⟩
          intro a ha hb
          simp only [List.mem_singleton] at hb
          subst hb
          exact hcol.2 ha
        · intro p hp
          rcases List.mem_append.1 hp with hp | hp
          · exact h3 p hp
          · simp only [List.mem_singleton] at hp
            subst hp
            exact hcol.1
  · exact ⟨h1, h2, h3⟩

/-- The planning-fold invariant, folded over the whole file list. -/
theorem foldl_planStep_inv (files : List FPath) :
    ∀ (l : List FPath) (acc : List RenamePlan × List FPath),
      acc.2 = acc.1.map RenamePlan.dst → acc.2.Nodup →
      (∀ p ∈ acc.1, p.dst ∉ files) →
      (l.foldl (planStep files) acc).2 =
        (l.foldl (planStep files) acc).1.map RenamePlan.dst ∧
      (l.foldl (planStep files) acc).2.Nodup ∧
      ∀ p ∈ (l.foldl (planStep files) acc).1, p.dst ∉ files := by
  intro l
  induction l with
  | nil => intro acc h1 h2 h3; exact ⟨h1, h2, h3⟩
  | cons x l ih =>
    intro acc h1 h2 h3
    obtain ⟨g1, g2, g3⟩ := planStep_inv files acc x h1 h2 h3
    exact ih (planStep files acc x) g1 g2 g3

/-- C2: planned destinations are pairwise distinct and none of them exists
on disk at planning time (collisions are skipped); at application time a
rename whose destination exists is skipped, and applying any plan list to a
filesystem with distinct paths preserves the multiset of file contents —
no existing file is ever overwritten. -/
theorem rename_collision_policy_spec :
    (∀ files : List FPath,
      ((compute_rename_plans files).map RenamePlan.dst).Nodup ∧
      ∀ p ∈ compute_rename_plans files, p.dst ∉ files) ∧
    (∀ (st : FS) (plan : RenamePlan), (fsLookup st plan.dst).isSome = true →
      applyStep st plan = some st) ∧
    (∀ (plans : List RenamePlan) (st st' : FS), (fsKeys st).Nodup →
      apply_renames plans false st = some st' →
      (st'.map Prod.snd).Perm (st.map Prod.snd) ∧ (fsKeys st').Nodup) := by
  refine ⟨?_, ?_, fun plans => apply_renames_preserves plans⟩
  · intro files
    obtain ⟨g1, g2, g3⟩ :=
      foldl_planStep_inv files files ([], []) rfl List.nodup_nil (by simp)
    rw [compute_rename_plans]
    exact ⟨g1 ▸ g2, g3⟩
  · intro st plan h
    unfold applyStep
    rw [if_pos h]

/-- Witness for `rename_collision_policy_spec`: a rename whose destination
already exists is skipped, and applying an empty plan list preserves a
one-file tree. -/
theorem rename_collision_policy_spec_witness :
    applyStep [([['a']], 0)] ⟨[['b']], [['a']]⟩ = some [([['a']], 0)] ∧
    (([([['a']], 0)] : FS).map Prod.snd).Perm
      (([([['a']], 0)] : FS).map Prod.snd) ∧
    (fsKeys ([([['a']], 0)] : FS)).Nodup :=
  ⟨rename_collision_policy_spec.2.1 [([['a']], 0)] ⟨[['b']], [['a']]⟩ (by decide),
   (rename_collision_policy_spec.2.2 [] [([['a']], 0)] [([['a']], 0)]
      (by decide) rfl).1,
   (rename_collision_policy_spec.2.2 [] [([['a']], 0)] [([['a']], 0)]
      (by decide) rfl).2⟩

/-! ### Dry-run behaviour of `remove_run_and_fix_intendedfor.py` -/

/-- A dry run applies no rename: the filesystem state is returned intact. -/
theorem apply_renames_dry (plans : List RenamePlan) (st : FS) :
    apply_renames plans true st = some st := by
  induction plans with
  | nil => rfl
  | cons plan rest ih =>
    rw [apply_renames, if_pos rfl]
    exact ih

/-- A dry run writes no JSON value back. -/
theorem update_intendedfor_dry_no_write (rel_map : List (Str × Str))
    (exF : Str → Bool) (v : JVal) :
    (update_intendedfor_in_json rel_map exF v true).2.2 = none := by
  simp only [update_intendedfor_in_json]
  split <;> simp

/-- C7 (amended): with `dry_run = True` the whole run leaves the
filesystem unchanged — `apply_renames` performs no rename and
`update_intendedfor_in_json` writes no JSON — and the planned renames and
rename map are computed exactly as in a real run; however (see the
counterexample) the computed `IntendedFor` changes may differ from a real
run, because the existence check runs against the pre-rename tree. -/
theorem dry_run_no_mutation_spec :
    (∀ (plans : List RenamePlan) (st : FS), apply_renames plans true st = some st) ∧
    (∀ (rel_map : List (Str × Str)) (exF : Str → Bool) (v : JVal),
      (update_intendedfor_in_json rel_map exF v true).2.2 = none) ∧
    (∀ (files0 : FS) (subject : Str) (v : JVal),
      run_for_fmap_json files0 subject v true =
        some (files0,
          update_intendedfor_in_json
            (build_intendedfor_mapping (compute_rename_plans (fsKeys files0)))
            (fun rel => exists_after_renames rel subject
              (build_intendedfor_mapping (compute_rename_plans (fsKeys files0)))
              fun p => (fsLookup files0 p).isSome)
            v true) ∧
      (run_for_fmap_json files0 subject v true).elim True
        (fun r => r.1 = files0 ∧ r.2.2.2 = none)) := by
  refine ⟨apply_renames_dry, update_intendedfor_dry_no_write, ?_⟩
  intro files0 subject v
  have hrun : run_for_fmap_json files0 subject v true =
      some (files0,
        update_intendedfor_in_json
          (build_intendedfor_mapping (compute_rename_plans (fsKeys files0)))
          (fun rel => exists_after_renames rel subject
            (build_intendedfor_mapping (compute_rename_plans (fsKeys files0)))
            fun p => (fsLookup files0 p).isSome)
          v true) := by
    rw [run_for_fmap_json]
    rw [apply_renames_dry]
  refine ⟨hrun, ?_⟩
  rw [hrun]
  exact ⟨rfl, update_intendedfor_dry_no_write _ _ v⟩

/-- C7 counterexample: on a one-file sessioned tree whose fmap
`IntendedFor` references the post-rename destination name, a dry run
reports the entry as removed (`changed = true`, one `REMOVE` change) while
a real run on the same initial state keeps it (`changed = false`, no
change): the computed `IntendedFor` changes are not the same. -/
theorem dry_run_divergence_counterexample :
    (run_for_fmap_json
        [(["sub-01".data, "ses-01".data, "func".data,
            "sub-01_ses-01_run-1_bold.nii".data], 0)]
        ("sub-01".data)
        (JVal.l ["ses-01/func/sub-01_ses-01_bold.nii".data]) true).map
        (fun r => (r.2.1, r.2.2.1)) =
      some (true, [("ses-01/func/sub-01_ses-01_bold.nii".data, none)]) ∧
    (run_for_fmap_json
        [(["sub-01".data, "ses-01".data, "func".data,
            "sub-01_ses-01_run-1_bold.nii".data], 0)]
        ("sub-01".data)
        (JVal.l ["ses-01/func/sub-01_ses-01_bold.nii".data]) false).map
        (fun r => (r.2.1, r.2.2.1)) =
      some (false, []) := by
  constructor
  · decide
  · decide

/-! ### Round trip of `_run-\d+` removal -/

/-- A head match of `_run-\d+` yields a non-empty digit run and decomposes
the input as `_run-` ++ digits ++ remainder, with a shorter remainder. -/
theorem matchRunAt_some {s ds rest : Str} (h : matchRunAt s = some (ds, rest)) :
    ds ≠ [] ∧ ds.all Char.isDigit ∧ s = runTokenHead ++ ds ++ rest ∧
      rest.length < s.length := by
  unfold matchRunAt at h
  split at h
  next c0 rest0 =>
    split at h
    · exact absurd h (by simp)
    · next hne =>
      obtain ⟨rfl, rfl⟩ := Prod.mk.injEq _ _ _ _ ▸ Option.some.inj h
      refine ⟨hne, ?_, ?_, ?_⟩
      · exact List.all_eq_true.2 fun x hx => List.mem_takeWhile_imp hx
      · simp only [runTokenHead, List.append_assoc, List.cons_append,
          List.nil_append]
        rw [List.takeWhile_append_dropWhile]
      · have hle : (rest0.dropWhile Char.isDigit).length ≤ rest0.length :=
          (List.dropWhile_sublist _).length_le
        simp only [List.length_cons]
        omega
  next => exact absurd h (by simp)

/-- The fuel-indexed segment decomposition: each removed token is a
non-empty digit run, the segments with their tokens reconstruct the input
exactly, the segments without their tokens are the `_run-\d+`-stripped
string, and a string containing a token has at least one segment. -/
theorem runSplitGo_spec : ∀ (fuel : Nat) (s : Str), s.length ≤ fuel →
    (∀ p ∈ (runSplitGo fuel s).1, p.2 ≠ [] ∧ p.2.all Char.isDigit) ∧
    s = ((runSplitGo fuel s).1.map fun p => p.1 ++ runTokenHead ++ p.2).flatten
        ++ (runSplitGo fuel s).2 ∧
    runTokenSubGo fuel s = ((runSplitGo fuel s).1.map Prod.fst).flatten
        ++ (runSplitGo fuel s).2 ∧
    (searchRunToken s = true → (runSplitGo fuel s).1 ≠ []) := by
  intro fuel
  induction fuel with
  | zero =>
    intro s hs
    obtain rfl := List.length_eq_zero.1 (Nat.le_zero.1 hs)
    simp [runSplitGo, runTokenSubGo, searchRunToken]
  | succ fuel ih =>
    intro s hs
    cases s with
    | nil => simp [runSplitGo, runTokenSubGo, searchRunToken]
    | cons c cs =>
      cases hm : matchRunAt (c :: cs) with
      | some pr =>
        obtain ⟨ds, rest⟩ := pr
        obtain ⟨hne, hdig, heq, hlt⟩ := matchRunAt_some hm
        have hrest : rest.length ≤ fuel := by
          simp only [List.length_cons] at hlt hs
          omega
        obtain ⟨ih1, ih2, ih3, ih4⟩ := ih rest hrest
        simp only [runSplitGo, runTokenSubGo, hm]
        refine ⟨?_, ?_, ?_, ?_⟩
        · intro p hp
          rcases List.mem_cons.1 hp with rfl | hp
          · exact ⟨hne, hdig⟩
          · exact ih1 p hp
        · rw [heq]
          conv_lhs => rw [ih2]
          simp [List.append_assoc]
        · simp only [List.map_cons, List.flatten_cons, List.nil_append]
          exact ih3
        · intro _
          simp
      | none =>
        have hcs : cs.length ≤ fuel := by
          simp only [List.length_cons] at hs
          omega
        obtain ⟨ih1, ih2, ih3, ih4⟩ := ih cs hcs
        have hsearch : searchRunToken (c :: cs) = searchRunToken cs := by
          simp [searchRunToken, hm]
        cases hr : runSplitGo fuel cs with
        | mk ps tail =>
          rw [hr] at ih1 ih2 ih3 ih4
          cases ps with
          | nil =>
            simp only [runSplitGo, runTokenSubGo, hm, hr]
            simp only [List.map_nil, List.flatten_nil, List.nil_append] at ih2 ih3
            refine ⟨by simp, ?_, ?_, ?_⟩
            · simp [← ih2]
            · simp [ih3, ← ih2]
            · intro hst
              rw [hsearch] at hst
              exact absurd rfl (ih4 hst)
          | cons kt ps' =>
            obtain ⟨k, t⟩ := kt
            simp only [runSplitGo, runTokenSubGo, hm, hr]
            refine ⟨?_, ?_, ?_, ?_⟩
            · intro p hp
              rcases List.mem_cons.1 hp with rfl | hp
              · exact ih1 (k, t) (List.mem_cons_self _ _)
              · exact ih1 p (List.mem_cons_of_mem _ hp)
            · simp only [List.map_cons, List.flatten_cons, List.append_assoc,
                List.cons_append] at ih2 ⊢
              rw [ih2]
            · simp only [List.map_cons, List.flatten_cons, List.append_assoc,
                List.cons_append] at ih3 ⊢
              rw [ih3]
            · intro _
              simp

/-- C9: every stem decomposes into kept segments and removed `_run-<digits>`
tokens such that re-inserting each removed token after its kept segment
reproduces the stem exactly, while `RUN_TOKEN_RE.sub` keeps exactly the
kept segments; a stem containing a token has at least one removed token. -/
theorem run_token_round_trip (s : Str) :
    (∀ p ∈ (runSplit s).1, p.2 ≠ [] ∧ p.2.all Char.isDigit) ∧
    s = ((runSplit s).1.map fun p => p.1 ++ runTokenHead ++ p.2).flatten
        ++ (runSplit s).2 ∧
    runTokenSub s = ((runSplit s).1.map Prod.fst).flatten ++ (runSplit s).2 ∧
    (searchRunToken s = true → (runSplit s).1 ≠ []) :=
  runSplitGo_spec s.length s (le_refl _)

/-- Witness for `run_token_round_trip` on the stem
`sub-01_run-02_bold`. -/
theorem run_token_round_trip_witness :
    ("sub-01_run-02_bold".data =
      (((runSplit "sub-01_run-02_bold".data).1.map
          fun p => p.1 ++ runTokenHead ++ p.2).flatten
        ++ (runSplit "sub-01_run-02_bold".data).2)) ∧
    runTokenSub "sub-01_run-02_bold".data =
      ((runSplit "sub-01_run-02_bold".data).1.map Prod.fst).flatten
        ++ (runSplit "sub-01_run-02_bold".data).2 :=
  ⟨(run_token_round_trip "sub-01_run-02_bold".data).2.1,
   (run_token_round_trip "sub-01_run-02_bold".data).2.2.1⟩

/-! ### `cubids_group_rename.py`: acquisition-string merging -/

/-- Stable insertion produces a permutation of consing. -/
theorem insertByLen_perm (x : Str × Str) (l : List (Str × Str)) :
    (insertByLen x l).Perm (x :: l) := by
  induction l with
  | nil => exact List.Perm.refl _
  | cons y ys ih =>
    rw [insertByLen]
    split
    · exact (ih.cons y).trans (List.Perm.swap x y ys)
    · exact List.Perm.refl _

/-- Stable insertion preserves the descending-key-length ordering. -/
theorem insertByLen_pairwise (x : Str × Str) (l : List (Str × Str))
    (hl : l.Pairwise fun a b => b.1.length ≤ a.1.length) :
    (insertByLen x l).Pairwise fun a b => b.1.length ≤ a.1.length := by
  induction l with
  | nil => simp [insertByLen]
  | cons y ys ih =>
    obtain ⟨hy, hys⟩ := List.pairwise_cons.1 hl
    rw [insertByLen]
    split
    · next hxy =>
      refine List.pairwise_cons.2 ⟨?_, ih hys⟩
      intro z hz
      rcases List.mem_cons.1 ((insertByLen_perm x ys).mem_iff.1 hz) with rfl | hz
      · exact hxy
      · exact hy z hz
    · next hxy =>
      refine List.pairwise_cons.2 ⟨?_, hl⟩
      intro z hz
      rcases List.mem_cons.1 hz with rfl | hz
      · exact Nat.le_of_lt (Nat.lt_of_not_le hxy)
      · exact le_trans (hy z hz) (Nat.le_of_lt (Nat.lt_of_not_le hxy))

/-- The insertion fold is a permutation of the accumulator and the input. -/
theorem foldl_insertByLen_perm :
    ∀ (l acc : List (Str × Str)),
      (l.foldl (fun acc x => insertByLen x acc) acc).Perm (acc ++ l) := by
  intro l
  induction l with
  | nil => intro acc; simp
  | cons x l ih =>
    intro acc
    rw [List.foldl_cons]
    have h2 : (insertByLen x acc ++ l).Perm (acc ++ x :: l) :=
      ((insertByLen_perm x acc).append_right l).trans List.perm_middle.symm
    exact (ih (insertByLen x acc)).trans h2

/-- The insertion fold preserves the descending ordering. -/
theorem foldl_insertByLen_pairwise :
    ∀ (l acc : List (Str × Str)),
      acc.Pairwise (fun a b => b.1.length ≤ a.1.length) →
      (l.foldl (fun acc x => insertByLen x acc) acc).Pairwise
        fun a b => b.1.length ≤ a.1.length := by
  intro l
  induction l with
  | nil => intro acc h; exact h
  | cons x l ih => intro acc h; exact ih _ (insertByLen_pairwise x acc h)

/-- A successful `isStart` decomposes the larger string. -/
theorem isStart_append : ∀ {a b : Str}, isStart a b = true →
    b = a ++ b.drop a.length := by
  intro a
  induction a with
  | nil => intro b _; simp
  | cons x xs ih =>
    intro b h
    cases b with
    | nil => simp [isStart] at h
    | cons y ys =>
      rw [isStart, Bool.and_eq_true] at h
      obtain ⟨hxy, hrest⟩ := h
      have hxy' : x = y := by simpa using hxy
      subst hxy'
      simp only [List.length_cons, List.drop_succ_cons, List.cons_append,
        List.cons.injEq, true_and]
      exact ih hrest

/-- `pySplitGo` never returns an empty list of parts. -/
theorem pySplitGo_ne_nil (sep : Str) :
    ∀ (fuel : Nat) (s : Str), pySplitGo sep fuel s ≠ [] := by
  intro fuel s
  match fuel, s with
  | 0, s => simp [pySplitGo]
  | fuel + 1, [] => simp [pySplitGo]
  | fuel + 1, c :: cs =>
    rw [pySplitGo]
    split
    · simp
    · split <;> simp

/-- Joining the parts of a Python `split` with the separator reproduces the
input: the split loses no text outside the separators. -/
theorem pySplitGo_join (sep : Str) (hsep : sep ≠ []) :
    ∀ (fuel : Nat) (s : Str), joinWithSep sep (pySplitGo sep fuel s) = s := by
  intro fuel
  induction fuel with
  | zero => intro s; simp [pySplitGo, joinWithSep]
  | succ fuel ih =>
    intro s
    cases s with
    | nil => simp [pySplitGo, joinWithSep]
    | cons c cs =>
      rw [pySplitGo]
      by_cases hst : isStart sep (c :: cs)
      · rw [if_pos hst]
        cases hr : pySplitGo sep fuel ((c :: cs).drop sep.length) with
        | nil => exact absurd hr (pySplitGo_ne_nil sep fuel _)
        | cons p ps =>
          have hj : joinWithSep sep ([] :: p :: ps) =
              sep ++ joinWithSep sep (p :: ps) := by
            simp [joinWithSep]
          rw [hj, ← hr, ih]
          exact (isStart_append hst).symm
      · rw [if_neg hst]
        cases hr : pySplitGo sep fuel cs with
        | nil => exact absurd hr (pySplitGo_ne_nil sep fuel cs)
        | cons p ps =>
          have hcs := ih cs
          rw [hr] at hcs
          cases ps with
          | nil =>
            simp only [joinWithSep] at hcs ⊢
            rw [hcs]
          | cons q ps' =>
            simp only [joinWithSep] at hcs ⊢
            rw [← hcs]
            simp

/-- C6 (amended): `modify_acq` is the pipeline `unify_acq`, then the
rename-map substitutions in stable descending key-length order, then
`merge_variants`; `unify_acq` returns `new` when `existing` is empty, the
containing string under substring containment, and otherwise the
underscore concatenation; the sorted map is a permutation of the map that
is descending in key length; splitting loses no text
(`sep.join(s.split(sep)) = s`); and `merge_variants` keeps the text before
the first `VARIANT`, one `VARIANT`, and the concatenation of the remaining
fragments (which may itself spell out `VARIANT` again). -/
theorem modify_acq_spec :
    (∀ (e n : Str) (m : List (Str × Str)), modify_acq e n m =
      merge_variants (if m = [] then unify_acq e n
        else (sortByLenDesc m).foldl (fun s kv => pyReplace kv.1 kv.2 s)
          (unify_acq e n))) ∧
    (∀ n : Str, unify_acq [] n = n) ∧
    (∀ e n : Str, e ≠ [] → isSub n e = true → unify_acq e n = e) ∧
    (∀ e n : Str, e ≠ [] → isSub n e = false → isSub e n = true →
      unify_acq e n = n) ∧
    (∀ e n : Str, e ≠ [] → isSub n e = false → isSub e n = false →
      unify_acq e n = e ++ '_' :: n) ∧
    (∀ m : List (Str × Str), (sortByLenDesc m).Perm m ∧
      (sortByLenDesc m).Pairwise fun a b => b.1.length ≤ a.1.length) ∧
    (∀ s : Str, joinWithSep VARIANT (pySplit VARIANT s) = s) ∧
    (∀ (s p : Str) (ps : List Str), pySplit VARIANT s = p :: ps → ps ≠ [] →
      merge_variants s = p ++ VARIANT ++ ps.flatten) := by
  refine ⟨fun e n m => rfl, fun n => rfl, ?_, ?_, ?_, ?_, ?_, ?_⟩
  · intro e n he hsub
    rw [unify_acq, if_neg he, if_pos hsub]
  · intro e n he hs1 hs2
    rw [unify_acq, if_neg he, if_neg (by simp [hs1]), if_pos hs2]
  · intro e n he hs1 hs2
    rw [unify_acq, if_neg he, if_neg (by simp [hs1]), if_neg (by simp [hs2])]
  · intro m
    constructor
    · exact (foldl_insertByLen_perm m []).trans (by simp)
    · exact foldl_insertByLen_pairwise m [] (List.Pairwise.nil)
  · intro s
    exact pySplitGo_join VARIANT (by decide) s.length s
  · intro s p ps h hps
    rw [merge_variants, h]
    cases ps with
    | nil => exact absurd rfl hps
    | cons q ps' => rfl

/-- Witness for `modify_acq_spec`: containment keeps the containing string,
and a two-token string merges the `VARIANT` markers. -/
theorem modify_acq_spec_witness :
    unify_acq "ab".data "b".data = "ab".data ∧
    merge_variants "aVARIANTbVARIANTc".data =
      "a".data ++ VARIANT ++ ["b".data, "c".data].flatten :=
  ⟨modify_acq_spec.2.2.1 ("ab".data) ("b".data) (by decide) (by decide),
   modify_acq_spec.2.2.2.2.2.2.2 ("aVARIANTbVARIANTc".data) ("a".data)
     ["b".data, "c".data] (by decide) (by decide)⟩

/-- C6 counterexample: after `modify_acq`, the token `VARIANT` can occur
twice — rejoining the fragments `VARIA` and `NT` recreates it — so
"only the first occurrence remains" is false as a property of the output:
`modify_acq "XVARIANTVARIAVARIANTNT" "" {}` yields `XVARIANTVARIANT`, which
contains two occurrences of `VARIANT`. -/
theorem modify_acq_variant_counterexample :
    modify_acq "XVARIANTVARIAVARIANTNT".data [] [] = "XVARIANTVARIANT".data ∧
    countOcc VARIANT (modify_acq "XVARIANTVARIAVARIANTNT".data [] []) = 2 := by
  constructor
  · decide
  · decide

/-! ### Idempotence of the sidecar field editors -/

/-- `aslStep1` touches only `TotalAcquiredPairs`. -/
theorem aslStep1_keeps (d : AslJson) :
    (aslStep1 d).1.NumVolumes = d.NumVolumes ∧
    (aslStep1 d).1.RepetitionTime = d.RepetitionTime ∧
    (aslStep1 d).1.RepetitionTimePreparation = d.RepetitionTimePreparation ∧
    (aslStep1 d).1.VoxelSizeDim1 = d.VoxelSizeDim1 ∧
    (aslStep1 d).1.VoxelSizeDim2 = d.VoxelSizeDim2 ∧
    (aslStep1 d).1.VoxelSizeDim3 = d.VoxelSizeDim3 ∧
    (aslStep1 d).1.AcquisitionVoxelSize = d.AcquisitionVoxelSize := by
  cases hnv : d.NumVolumes <;> simp [aslStep1, hnv] <;> split_ifs <;> simp_all

/-- `aslStep2` touches only `RepetitionTimePreparation`. -/
theorem aslStep2_keeps (d : AslJson) :
    (aslStep2 d).1.NumVolumes = d.NumVolumes ∧
    (aslStep2 d).1.TotalAcquiredPairs = d.TotalAcquiredPairs ∧
    (aslStep2 d).1.RepetitionTime = d.RepetitionTime ∧
    (aslStep2 d).1.VoxelSizeDim1 = d.VoxelSizeDim1 ∧
    (aslStep2 d).1.VoxelSizeDim2 = d.VoxelSizeDim2 ∧
    (aslStep2 d).1.VoxelSizeDim3 = d.VoxelSizeDim3 ∧
    (aslStep2 d).1.AcquisitionVoxelSize = d.AcquisitionVoxelSize := by
  cases hrt : d.RepetitionTime <;> simp [aslStep2, hrt] <;> split_ifs <;> simp_all

/-- `aslStep3` touches only `AcquisitionVoxelSize`. -/
theorem aslStep3_keeps (d : AslJson) :
    (aslStep3 d).1.NumVolumes = d.NumVolumes ∧
    (aslStep3 d).1.TotalAcquiredPairs = d.TotalAcquiredPairs ∧
    (aslStep3 d).1.RepetitionTime = d.RepetitionTime ∧
    (aslStep3 d).1.RepetitionTimePreparation = d.RepetitionTimePreparation ∧
    (aslStep3 d).1.VoxelSizeDim1 = d.VoxelSizeDim1 ∧
    (aslStep3 d).1.VoxelSizeDim2 = d.VoxelSizeDim2 ∧
    (aslStep3 d).1.VoxelSizeDim3 = d.VoxelSizeDim3 := by
  cases h1 : d.VoxelSizeDim1 <;> cases h2 : d.VoxelSizeDim2 <;>
    cases h3 : d.VoxelSizeDim3 <;> simp [aslStep3, h1, h2, h3] <;>
    split_ifs <;> simp_all

/-- Re-running `aslStep1` on its own output changes nothing. -/
theorem aslStep1_idem (d : AslJson) :
    aslStep1 (aslStep1 d).1 = ((aslStep1 d).1, false) := by
  cases hnv : d.NumVolumes with
  | none =>
    have hstep : aslStep1 d = (d, false) := by simp [aslStep1, hnv]
    rw [hstep]
    exact hstep
  | some nv =>
    by_cases htap : d.TotalAcquiredPairs = some (nv / 2)
    · have hstep : aslStep1 d = (d, false) := by simp [aslStep1, hnv, htap]
      rw [hstep]
      exact hstep
    · have hstep : aslStep1 d =
          ({ d with TotalAcquiredPairs := some (nv / 2) }, true) := by
        simp [aslStep1, hnv, htap]
      rw [hstep]
      dsimp only
      simp [aslStep1, hnv]

/-- Re-running `aslStep2` on its own output changes nothing. -/
theorem aslStep2_idem (d : AslJson) :
    aslStep2 (aslStep2 d).1 = ((aslStep2 d).1, false) := by
  cases hrt : d.RepetitionTime with
  | none =>
    have hstep : aslStep2 d = (d, false) := by simp [aslStep2, hrt]
    rw [hstep]
    exact hstep
  | some rt =>
    by_cases hp : d.RepetitionTimePreparation = some rt
    · have hstep : aslStep2 d = (d, false) := by simp [aslStep2, hrt, hp]
      rw [hstep]
      exact hstep
    · have hstep : aslStep2 d =
          ({ d with RepetitionTimePreparation := some rt }, true) := by
        simp [aslStep2, hrt, hp]
      rw [hstep]
      dsimp only
      simp [aslStep2, hrt]

/-- Re-running `aslStep3` on its own output changes nothing. -/
theorem aslStep3_idem (d : AslJson) :
    aslStep3 (aslStep3 d).1 = ((aslStep3 d).1, false) := by
  cases h1 : d.VoxelSizeDim1 with
  | none =>
    have hstep : aslStep3 d = (d, false) := by simp [aslStep3, h1]
    rw [hstep]
    exact hstep
  | some v1 =>
    cases h2 : d.VoxelSizeDim2 with
    | none =>
      have hstep : aslStep3 d = (d, false) := by simp [aslStep3, h1, h2]
      rw [hstep]
      exact hstep
    | some v2 =>
      cases h3 : d.VoxelSizeDim3 with
      | none =>
        have hstep : aslStep3 d = (d, false) := by simp [aslStep3, h1, h2, h3]
        rw [hstep]
        exact hstep
      | some v3 =>
        by_cases havs : d.AcquisitionVoxelSize = some [v1, v2, v3]
        · have hstep : aslStep3 d = (d, false) := by
            simp [aslStep3, h1, h2, h3, havs]
          rw [hstep]
          exact hstep
        · have hstep : aslStep3 d =
              ({ d with AcquisitionVoxelSize := some [v1, v2, v3] }, true) := by
            simp [aslStep3, h1, h2, h3, havs]
          rw [hstep]
          dsimp only
          simp [aslStep3, h1, h2, h3]

/-- Whether `aslStep1` writes depends only on the fields it reads. -/
theorem aslStep1_flag_congr (d e : AslJson) (h1 : d.NumVolumes = e.NumVolumes)
    (h2 : d.TotalAcquiredPairs = e.TotalAcquiredPairs) :
    (aslStep1 d).2 = (aslStep1 e).2 := by
  cases hnv : e.NumVolumes <;> simp [aslStep1, h1, h2, hnv] <;> split_ifs <;>
    simp_all

/-- Whether `aslStep2` writes depends only on the fields it reads. -/
theorem aslStep2_flag_congr (d e : AslJson)
    (h1 : d.RepetitionTime = e.RepetitionTime)
    (h2 : d.RepetitionTimePreparation = e.RepetitionTimePreparation) :
    (aslStep2 d).2 = (aslStep2 e).2 := by
  cases hrt : e.RepetitionTime <;> simp [aslStep2, h1, h2, hrt] <;>
    split_ifs <;> simp_all

/-- Whether `aslStep3` writes depends only on the fields it reads. -/
theorem aslStep3_flag_congr (d e : AslJson)
    (h1 : d.VoxelSizeDim1 = e.VoxelSizeDim1)
    (h2 : d.VoxelSizeDim2 = e.VoxelSizeDim2)
    (h3 : d.VoxelSizeDim3 = e.VoxelSizeDim3)
    (h4 : d.AcquisitionVoxelSize = e.AcquisitionVoxelSize) :
    (aslStep3 d).2 = (aslStep3 e).2 := by
  cases hv1 : e.VoxelSizeDim1 <;> cases hv2 : e.VoxelSizeDim2 <;>
    cases hv3 : e.VoxelSizeDim3 <;>
    simp [aslStep3, h1, h2, h3, h4, hv1, hv2, hv3] <;> split_ifs <;> simp_all

/-- A step that does not write returns its input unchanged. -/
theorem aslStep1_noflag_eq (d : AslJson) (h : (aslStep1 d).2 = false) :
    (aslStep1 d).1 = d := by
  cases hnv : d.NumVolumes with
  | none => simp [aslStep1, hnv]
  | some nv =>
    by_cases htap : d.TotalAcquiredPairs = some (nv / 2)
    · simp [aslStep1, hnv, htap]
    · simp [aslStep1, hnv, htap] at h

/-- A step that does not write returns its input unchanged. -/
theorem aslStep2_noflag_eq (d : AslJson) (h : (aslStep2 d).2 = false) :
    (aslStep2 d).1 = d := by
  cases hrt : d.RepetitionTime with
  | none => simp [aslStep2, hrt]
  | some rt =>
    by_cases hp : d.RepetitionTimePreparation = some rt
    · simp [aslStep2, hrt, hp]
    · simp [aslStep2, hrt, hp] at h

/-- `update_asl_json` rewrites a file only once: a second run on the
written sidecar performs no write. -/
theorem update_asl_json_idem (d d' : AslJson)
    (h : update_asl_json d = some d') : update_asl_json d' = none := by
  unfold update_asl_json at h
  dsimp only at h
  split at h
  case isFalse => exact absurd h (by simp)
  case isTrue hflags =>
    obtain rfl := Option.some.inj h
    set d1 := (aslStep1 d).1 with hd1
    set d2 := (aslStep2 d1).1 with hd2
    set d3 := (aslStep3 d2).1 with hd3
    have k2 := aslStep2_keeps d1
    have k3 := aslStep3_keeps d2
    have f1 : (aslStep1 d3).2 = false := by
      have := aslStep1_flag_congr d3 d1
        (by rw [k3.1, k2.1]) (by rw [k3.2.1, k2.2.1])
      rw [this, aslStep1_idem d]
    have f2 : (aslStep2 d3).2 = false := by
      have := aslStep2_flag_congr d3 d2 (by rw [k3.2.2.1]) (by rw [k3.2.2.2.1])
      rw [this, aslStep2_idem d1]
    have f3 : (aslStep3 d3).2 = false := by
      rw [aslStep3_idem d2]
    have e1 : (aslStep1 d3).1 = d3 := aslStep1_noflag_eq d3 f1
    have e2 : (aslStep2 d3).1 = d3 := aslStep2_noflag_eq d3 f2
    unfold update_asl_json
    dsimp only
    rw [e1, e2, f1, f2, f3]
    simp

/-- Range validation: a constructed time has a valid hour. -/
theorem mkTime_some {h m s mi : Nat} {t : PTime}
    (heq : mkTime h m s mi = some t) : t = ⟨h, m, s, mi⟩ ∧ h ≤ 23 := by
  unfold mkTime at heq
  split at heq
  · next hr => exact ⟨(Option.some.inj heq).symm, hr.1⟩
  · exact absurd heq (by simp)

/-- Pattern-1 tails only produce times with valid hours. -/
theorem parseAfterHour_hour {hour : Nat} {cs : Str} {t : PTime}
    (h : parseAfterHour hour cs = some (some t)) : t.hour ≤ 23 := by
  unfold parseAfterHour at h
  split at h
  · split at h
    · split at h
      · next heq =>
        obtain ⟨rfl, hh⟩ := mkTime_some (Option.some.inj h)
        exact hh
      · exact absurd h (by simp)
    · exact absurd h (by simp)
  · exact absurd h (by simp)

/-- Pattern 1 only produces times with valid hours. -/
theorem parsePattern1_hour {s : Str} {t : PTime}
    (h : parsePattern1 s = some (some t)) : t.hour ≤ 23 := by
  unfold parsePattern1 at h
  split at h
  · split at h
    · split at h
      · split at h
        · next heq => exact parseAfterHour_hour (heq ▸ h)
        · exact parseAfterHour_hour h
      · exact parseAfterHour_hour h
    · exact absurd h (by simp)
  · exact absurd h (by simp)

/-- Pattern 2 only produces times with valid hours. -/
theorem parsePattern2_hour {s : Str} {t : PTime}
    (h : parsePattern2 s = some (some t)) : t.hour ≤ 23 := by
  unfold parsePattern2 at h
  split at h
  · split at h
    · split at h
      · obtain ⟨rfl, hh⟩ := mkTime_some (Option.some.inj h)
        exact hh
      · split at h
        · obtain ⟨rfl, hh⟩ := mkTime_some (Option.some.inj h)
          exact hh
        · exact absurd h (by simp)
      · exact absurd h (by simp)
    · exact absurd h (by simp)
  · exact absurd h (by simp)

/-- `parse_time_string` only produces times with valid hours. -/
theorem parse_time_string_hour {s : Str} {t : PTime}
    (h : parse_time_string s = some t) : t.hour ≤ 23 := by
  unfold parse_time_string at h
  dsimp only at h
  split at h
  · exact absurd h (by simp)
  · split at h
    · next heq => exact parsePattern1_hour (heq.trans (congrArg some h))
    · split at h
      · next heq => exact parsePattern2_hour (heq.trans (congrArg some h))
      · exact absurd h (by simp)

/-- Parsing the formatted exact hour recovers it (all 24 hours). -/
theorem parse_format_exact : ∀ h : Fin 24,
    parse_time_string (format_time_hhmmss ⟨h.val, 0, 0, 0⟩) =
      some ⟨h.val, 0, 0, 0⟩ := by decide

/-- A valid time rounds to an exact hour with a valid hour. -/
theorem round_form (t : PTime) (ht : t.hour ≤ 23) :
    ∃ H, H ≤ 23 ∧ round_to_nearest_hour t = ⟨H, 0, 0, 0⟩ := by
  unfold round_to_nearest_hour
  dsimp only
  split
  · refine ⟨(t.hour + 1) % 24, ?_, rfl⟩
    have := Nat.mod_lt (t.hour + 1) (show 0 < 24 by norm_num)
    omega
  · exact ⟨t.hour, ht, rfl⟩

/-- An exact hour rounds to itself. -/
theorem round_exact (H : Nat) :
    round_to_nearest_hour ⟨H, 0, 0, 0⟩ = ⟨H, 0, 0, 0⟩ := by
  simp [round_to_nearest_hour]

/-- `round_AcquisitionTime` rewrites a file only once: re-processing the
written `HH:00:00` value performs no write. -/
theorem process_acquisition_time_idem (v v' : Str)
    (h : process_acquisition_time v = some v') :
    process_acquisition_time v' = none := by
  unfold process_acquisition_time at h
  split at h
  · exact absurd h (by simp)
  · next parsed hparse =>
    dsimp only at h
    split at h
    · next hchange =>
      obtain rfl := Option.some.inj h
      have hhour : parsed.hour ≤ 23 := parse_time_string_hour hparse
      obtain ⟨H, hH, hround⟩ := round_form parsed hhour
      rw [hround]
      unfold process_acquisition_time
      rw [parse_format_exact ⟨H, Nat.lt_succ_of_le hH⟩]
      dsimp only
      rw [round_exact]
      simp
    · exact absurd h (by simp)

/-- C5: each sidecar field editor is idempotent — a run that writes leaves
the file in a state where an immediately repeated run performs no write:
`update_asl_json` (ASL field sync), `process_acquisition_time`
(AcquisitionTime rounding), and `update_background_suppression`. -/
theorem sidecar_editors_idempotent :
    (∀ d d' : AslJson, update_asl_json d = some d' → update_asl_json d' = none) ∧
    (∀ v v' : Str, process_acquisition_time v = some v' →
      process_acquisition_time v' = none) ∧
    (∀ (v w : BSVal) (dry_run : Bool),
      update_background_suppression (some v) false = (true, some w) →
      update_background_suppression (some w) dry_run = (false, none)) := by
  refine ⟨update_asl_json_idem, process_acquisition_time_idem, ?_⟩
  intro v w dry_run h
  by_cases hv : should_set_true v
  · simp only [update_background_suppression, if_pos hv] at h
    rw [if_neg (by decide : ¬(false = true))] at h
    obtain rfl : w = BSVal.b true :=
      (Option.some.inj (congrArg Prod.snd h)).symm
    simp [update_background_suppression, should_set_true]
  · simp only [update_background_suppression, if_neg hv] at h
    exact absurd (congrArg Prod.fst h) (by simp)

/-- Witness for `sidecar_editors_idempotent` on concrete sidecars: each
editor writes once and the second run writes nothing. -/
theorem sidecar_editors_idempotent_witness :
    (update_asl_json ⟨some 4, none, some 3, none, some 2, some 2, some 2, none⟩ =
      some ⟨some 4, some 2, some 3, some 3, some 2, some 2, some 2,
        some [2, 2, 2]⟩ ∧
     update_asl_json ⟨some 4, some 2, some 3, some 3, some 2, some 2, some 2,
        some [2, 2, 2]⟩ = none) ∧
    (process_acquisition_time "10:31:00".data = some "11:00:00".data ∧
     process_acquisition_time "11:00:00".data = none) ∧
    (update_background_suppression (some (BSVal.b false)) false =
      (true, some (BSVal.b true)) ∧
     update_background_suppression (some (BSVal.b true)) false = (false, none)) :=
  ⟨⟨by
      have h2 : (4 : ℚ) / 2 = 2 := by norm_num
      simp [update_asl_json, aslStep1, aslStep2, aslStep3, h2],
    sidecar_editors_idempotent.1
      ⟨some 4, none, some 3, none, some 2, some 2, some 2, none⟩
      ⟨some 4, some 2, some 3, some 3, some 2, some 2, some 2, some [2, 2, 2]⟩
      (by
        have h2 : (4 : ℚ) / 2 = 2 := by norm_num
        simp [update_asl_json, aslStep1, aslStep2, aslStep3, h2])⟩,
   ⟨by decide,
    sidecar_editors_idempotent.2.1 "10:31:00".data "11:00:00".data (by decide)⟩,
   ⟨by decide, sidecar_editors_idempotent.2.2 (BSVal.b false) (BSVal.b true)
      false (by decide)⟩⟩

end Grmpy
